import Mathlib

/-!
Shallow embedding of the sparse-matrix program in
`src/sparse_matrix/code/src/main.py`.

Python strings are modelled as lists of characters (`Str`), Python `dict`
as an association list with unique keys, Python's unbounded `int` as `Int`,
and a raised `ValueError` as the error case of `Except String` carrying the
exception's message.  File input is modelled as the list of lines of the
file's contents (Python's `for line in file`).
-/

/-- Python strings are modelled as lists of characters. -/
abbrev Str := List Char

/-- Coordinate key of a stored entry: a Python `(row, col)` tuple. -/
abbrev Key := Int × Int

/-- One stored binding of the Python dictionary `self.data`. -/
abbrev Entry := Key × Int

/-- Abbreviation turning a Lean string literal into the `Str` model. -/
def strL (s : String) : Str := s.toList

/-- Characters stripped by Python's `str.strip()` (ASCII whitespace). -/
def isPyWS (c : Char) : Bool :=
  c = ' ' || c = '\t' || c = '\n' || c = '\r' || c = '\x0b' || c = '\x0c'

/-- Python's `str.strip()`: drop leading and trailing whitespace. -/
def pyStrip (s : Str) : Str :=
  ((s.dropWhile isPyWS).reverse.dropWhile isPyWS).reverse

/-- Python's `str.split(sep)` for a one-character separator: split at every
occurrence of `sep`, keeping empty fields.  The result is always nonempty. -/
def splitOn (sep : Char) : Str → List Str
  | [] => [[]]
  | c :: rest =>
    if c = sep then [] :: splitOn sep rest
    else
      match splitOn sep rest with
      | [] => [[c]]
      | h :: t => (c :: h) :: t

/-- Tail of Python's integer-literal scanner: after a first digit has been
consumed into `acc`, consume further digits, allowing a single underscore
between two digits (as Python's `int()` does). -/
def pyDigitsAux : List Char → Nat → Option Nat
  | [], acc => some acc
  | c :: rest, acc =>
    if c = '_' then
      if (rest.headD ' ').isDigit then pyDigitsAux rest acc else none
    else if c.isDigit then pyDigitsAux rest (acc * 10 + (c.toNat - 48))
    else none

/-- Scan an unsigned decimal literal the way Python's `int()` does:
at least one digit, single underscores allowed only between digits. -/
def pyDigits : List Char → Option Nat
  | [] => none
  | c :: rest =>
    if c.isDigit then pyDigitsAux rest (c.toNat - 48) else none

/-- Python's `int(s)` on a string: strip whitespace, then an optional sign
followed by a decimal literal.  Returns `none` where Python raises
`ValueError`. -/
def pyInt? (s : Str) : Option Int :=
  match pyStrip s with
  | [] => none
  | c :: rest =>
    if c = '-' then (pyDigits rest).map (fun n => -(n : Int))
    else if c = '+' then (pyDigits rest).map (fun n => (n : Int))
    else (pyDigits (c :: rest)).map (fun n => (n : Int))

/-- Python `self.data.get((row, col), 0)`: first binding of the key, else 0. -/
def dictGet (l : List Entry) (k : Key) : Int :=
  match l.find? (fun e => e.1 = k) with
  | some e => e.2
  | none => 0

/-- Python `self.data[(row, col)] = value`: overwrite the binding in place
if the key is present, else append a new binding (dict insertion order). -/
def dictInsert (l : List Entry) (k : Key) (v : Int) : List Entry :=
  match l with
  | [] => [(k, v)]
  | e :: t => if e.1 = k then (k, v) :: t else e :: dictInsert t k v

/-- Python `del self.data[(row, col)]`: remove the binding of the key. -/
def dictRemove (l : List Entry) (k : Key) : List Entry :=
  l.filter (fun e => decide (e.1 ≠ k))

/-- The `SparseMatrix` class: declared dimensions and the dictionary
`self.data` of stored entries. -/
structure SparseMatrix where
  rows : Int
  cols : Int
  data : List Entry
deriving DecidableEq

/-- `SparseMatrix(rows=0, cols=0)` before any file is loaded: the
constructor's defaults. -/
def mEmpty : SparseMatrix := { rows := 0, cols := 0, data := [] }

/-- `get_element`: the stored value at `(row, col)`, or 0 if absent. -/
def SparseMatrix.get_element (m : SparseMatrix) (row col : Int) : Int :=
  dictGet m.data (row, col)

/-- `set_element`: store the value if nonzero, else delete the entry if
present (no-op when absent). -/
def SparseMatrix.set_element (m : SparseMatrix) (row col value : Int) :
    SparseMatrix :=
  if value ≠ 0 then { m with data := dictInsert m.data (row, col) value }
  else if (m.data.find? (fun e => e.1 = (row, col))).isSome then
    { m with data := dictRemove m.data (row, col) }
  else m

/-- One iteration of the loop in `add`: `result.set_element(row, col,
result.get_element(row, col) + val)`. -/
def addStep (r : SparseMatrix) (e : Entry) : SparseMatrix :=
  r.set_element e.1.1 e.1.2 (r.get_element e.1.1 e.1.2 + e.2)

/-- One iteration of the loop in `subtract`. -/
def subStep (r : SparseMatrix) (e : Entry) : SparseMatrix :=
  r.set_element e.1.1 e.1.2 (r.get_element e.1.1 e.1.2 - e.2)

/-- `add`: dimension check, then start from a copy of `self.data` and fold
`other`'s entries through `set_element`. -/
def SparseMatrix.add (a b : SparseMatrix) : Except String SparseMatrix :=
  if a.rows ≠ b.rows ∨ a.cols ≠ b.cols then
    .error "Matrix dimensions must match for addition"
  else
    .ok (b.data.foldl addStep { rows := a.rows, cols := a.cols, data := a.data })

/-- `subtract`: same as `add` with subtraction. -/
def SparseMatrix.subtract (a b : SparseMatrix) : Except String SparseMatrix :=
  if a.rows ≠ b.rows ∨ a.cols ≠ b.cols then
    .error "Matrix dimensions must match for subtraction"
  else
    .ok (b.data.foldl subStep { rows := a.rows, cols := a.cols, data := a.data })

/-- The inner loop of `multiply` for a fixed entry `(r1, c1) -> v1` of the
left operand: scan every column `c2` of `b` and accumulate `v1 * v2` when
`v2 = b.get_element(c1, c2)` is nonzero. -/
def mulInner (b : SparseMatrix) (r1 c1 v1 : Int) (acc : SparseMatrix) :
    SparseMatrix :=
  (List.range b.cols.toNat).foldl
    (fun r (c2 : Nat) =>
      let v2 := b.get_element c1 (c2 : Int)
      if v2 ≠ 0 then
        r.set_element r1 (c2 : Int) (r.get_element r1 (c2 : Int) + v1 * v2)
      else r)
    acc

/-- `multiply`: inner-dimension check, then fold the left operand's entries
through the dense column scan `mulInner`. -/
def SparseMatrix.multiply (a b : SparseMatrix) : Except String SparseMatrix :=
  if a.cols ≠ b.rows then
    .error "Matrix dimensions do not allow multiplication"
  else
    .ok (a.data.foldl (fun r e => mulInner b e.1.1 e.1.2 e.2 r)
      { rows := a.rows, cols := b.cols, data := [] })

/-- Fuel-driven digit printer (structural recursion so that the kernel can
evaluate it; with enough fuel it computes the decimal digits of `n`, most
significant first). -/
def natDigsF : Nat → Nat → List Char
  | 0, _ => []
  | f + 1, n =>
    if n < 10 then [Nat.digitChar n]
    else natDigsF f (n / 10) ++ [Nat.digitChar (n % 10)]

/-- Decimal digits of a natural number, most significant first (the digits
Python's `str` prints). -/
def natDigs (n : Nat) : List Char := natDigsF (n + 1) n

/-- Python's `str` on an `int`: a minus sign for negatives, then digits. -/
def intStr (i : Int) : Str :=
  if i < 0 then '-' :: natDigs i.natAbs else natDigs i.toNat

/-- The line `rows=<rows>` emitted by `to_string`. -/
def rowsLine (m : SparseMatrix) : Str := strL "rows=" ++ intStr m.rows

/-- The line `cols=<cols>` emitted by `to_string`. -/
def colsLine (m : SparseMatrix) : Str := strL "cols=" ++ intStr m.cols

/-- The line `(<row>, <col>, <val>)` emitted by `to_string` for one entry. -/
def entryLine (e : Entry) : Str :=
  '(' :: (intStr e.1.1 ++ (strL ", " ++ (intStr e.1.2 ++
    (strL ", " ++ (intStr e.2 ++ [')'])))))

/-- Python tuple order on dict items `((row, col), value)`: lexicographic on
the key, then on the value (the order used by `sorted(self.data.items())`). -/
def itemLe (x y : Entry) : Prop :=
  x.1.1 < y.1.1 ∨ (x.1.1 = y.1.1 ∧ (x.1.2 < y.1.2 ∨
    (x.1.2 = y.1.2 ∧ x.2 ≤ y.2)))

instance itemLe.dec : DecidableRel itemLe := fun x y => by
  unfold itemLe; exact inferInstance

instance itemLe.total : IsTotal Entry itemLe :=
  ⟨by intro a b; unfold itemLe; omega⟩

instance itemLe.trans : IsTrans Entry itemLe :=
  ⟨by intro a b c hab hbc; unfold itemLe at *; omega⟩

/-- `sorted(self.data.items())`. -/
def sortItems (l : List Entry) : List Entry := List.insertionSort itemLe l

/-- Python's `"\n".join(lines)`. -/
def joinNL : List Str → Str
  | [] => []
  | [l] => l
  | l :: l2 :: ls => l ++ '\n' :: joinNL (l2 :: ls)

/-- `to_string`: the `rows=` line, the `cols=` line, then one line per
stored entry in sorted item order, joined by newlines. -/
def SparseMatrix.to_string (m : SparseMatrix) : Str :=
  joinNL (rowsLine m :: colsLine m :: (sortItems m.data).map entryLine)

/-- The single message of every `ValueError` escaping `load_from_file`
(all exceptions inside the loop are caught and re-raised with it). -/
def errMsg : String := "Input file has wrong format"

/-- Python `line[1:-1]`: the interior of an entry line. -/
def innerOf (l : Str) : Str := (l.drop 1).dropLast

/-- Processing of one line of the file inside `load_from_file`'s loop:
strip, skip blanks, handle `rows=` and `cols=` assignments via
`int(line.split("=")[1].strip())`, parse a parenthesised entry line into
exactly three integer fields stored by direct dict assignment, and fail on
anything else.  Errors carry the uniform message of the outer handler. -/
def loadLine (m : SparseMatrix) (line : Str) : Except String SparseMatrix :=
  let l := pyStrip line
  if l = [] then .ok m
  else if (strL "rows=").isPrefixOf l then
    match pyInt? (pyStrip ((splitOn '=' l).getD 1 [])) with
    | some n => .ok { m with rows := n }
    | none => .error errMsg
  else if (strL "cols=").isPrefixOf l then
    match pyInt? (pyStrip ((splitOn '=' l).getD 1 [])) with
    | some n => .ok { m with cols := n }
    | none => .error errMsg
  else if l.head? = some '(' ∧ l.getLast? = some ')' then
    let parts := splitOn ',' (innerOf l)
    if parts.length = 3 then
      match pyInt? (pyStrip (parts.getD 0 [])),
            pyInt? (pyStrip (parts.getD 1 [])),
            pyInt? (pyStrip (parts.getD 2 [])) with
      | some row, some col, some v =>
        .ok { m with data := dictInsert m.data (row, col) v }
      | _, _, _ => .error errMsg
    else .error errMsg
  else .error errMsg

/-- The loop of `load_from_file` over the remaining lines: the first raised
error aborts the whole load. -/
def loadLoop (m : SparseMatrix) : List Str → Except String SparseMatrix
  | [] => .ok m
  | l :: ls =>
    match loadLine m l with
    | .ok m2 => loadLoop m2 ls
    | .error e => .error e

/-- `SparseMatrix(file_path)`: construct with the default dimensions, then
run `load_from_file` over the file's lines. -/
def load_lines (ls : List Str) : Except String SparseMatrix :=
  loadLoop mEmpty ls

/-- Loading from a file whose whole contents are `content`: the loop sees
the text split at newlines. -/
def load_string (content : Str) : Except String SparseMatrix :=
  load_lines (splitOn '\n' content)

/-- No stored key occurs twice.  Python dictionaries cannot hold a key
twice; this is the side condition making the association-list model a
faithful dict. -/
def KeysNodup (l : List Entry) : Prop := l.Pairwise (fun a b => a.1 ≠ b.1)

/-- The no-zero-entries invariant of the data model. -/
def NoZeros (l : List Entry) : Prop := ∀ e ∈ l, e.2 ≠ 0

/-- Every stored key lies within the declared dimensions. -/
def InBounds (m : SparseMatrix) : Prop :=
  ∀ e ∈ m.data, 0 ≤ e.1.1 ∧ e.1.1 < m.rows ∧ 0 ≤ e.1.2 ∧ e.1.2 < m.cols

instance KeysNodup.dec (l : List Entry) : Decidable (KeysNodup l) := by
  unfold KeysNodup
  exact inferInstance

instance NoZeros.dec (l : List Entry) : Decidable (NoZeros l) := by
  unfold NoZeros
  exact inferInstance

instance InBounds.dec (m : SparseMatrix) : Decidable (InBounds m) := by
  unfold InBounds
  exact inferInstance

/-- Two matrices hold the same non-zero entry set: every coordinate reads
the same value through `get_element`. -/
def EntriesEq (a b : SparseMatrix) : Prop :=
  ∀ r c, a.get_element r c = b.get_element r c

/-- Strict lexicographic order on coordinate keys: row-major, then column. -/
def keyLt (a b : Key) : Prop := a.1 < b.1 ∨ (a.1 = b.1 ∧ a.2 < b.2)

/-- Apply a finite sequence of `set_element(row, col, value)` calls. -/
def applyOps (m : SparseMatrix) (ops : List (Int × Int × Int)) : SparseMatrix :=
  ops.foldl (fun acc t => acc.set_element t.1 t.2.1 t.2.2) m

/-- Dense reference value of the product at one coordinate: the sum over
`k` in `[0, A.cols)` of `A(r, k) * B(k, c)`. -/
def denseEntry (a b : SparseMatrix) (r c : Int) : Int :=
  ∑ k ∈ Finset.range a.cols.toNat,
    a.get_element r (k : Int) * b.get_element (k : Int) c

/-- Total contribution of the listed left-operand entries to the product
value at `(r, c)`: each entry `(r1, k) -> v` with `r1 = r` contributes
`v * b(k, c)` when `c` is one of the scanned columns `[0, b.cols)`. -/
def mulContrib (b : SparseMatrix) (r c : Int) (l : List Entry) : Int :=
  (l.map (fun e =>
    if r = e.1.1 ∧ 0 ≤ c ∧ c < b.cols then e.2 * b.get_element e.1.2 c
    else 0)).sum

/-- Modelled from the spec: the three recognized line shapes of the grammar
in §4.3, as the claim states them — the line `rows=<integer>`, the line
`cols=<integer>`, or a parenthesised entry line of exactly three integer
fields (each field trimmed of whitespace); the line is stripped first. -/
def specLineShape (line : Str) : Bool :=
  let l := pyStrip line
  ((strL "rows=").isPrefixOf l && (pyInt? (l.drop 5)).isSome) ||
  ((strL "cols=").isPrefixOf l && (pyInt? (l.drop 5)).isSome) ||
  (decide (l.head? = some '(') && decide (l.getLast? = some ')') &&
    decide ((splitOn ',' (innerOf l)).length = 3) &&
    (splitOn ',' (innerOf l)).all (fun p => (pyInt? (pyStrip p)).isSome))

/-- Modelled from the amended claim: the per-line acceptance the loader
implements — a blank line; a line starting with `rows=` or `cols=` whose
text between the first `=` and the following `=` (or the end of the line)
parses as a Python integer after stripping; or a parenthesised entry line
of exactly three integer fields. -/
def amendedAcceptsLine (line : Str) : Bool :=
  let l := pyStrip line
  decide (l = []) ||
  ((strL "rows=").isPrefixOf l &&
    (pyInt? (pyStrip ((splitOn '=' l).getD 1 []))).isSome) ||
  ((strL "cols=").isPrefixOf l &&
    (pyInt? (pyStrip ((splitOn '=' l).getD 1 []))).isSome) ||
  (decide (l.head? = some '(') && decide (l.getLast? = some ')') &&
    decide ((splitOn ',' (innerOf l)).length = 3) &&
    (splitOn ',' (innerOf l)).all (fun p => (pyInt? (pyStrip p)).isSome))

/-- Heap of dictionary objects: each matrix's mutable `data` dict lives at
an index of the store, so that aliasing between matrices is observable. -/
abbrev Store := List (List Entry)

/-- A matrix object in the heap model: its dimension attributes plus the
reference to its `data` dictionary in the store. -/
structure MatRef where
  rows : Int
  cols : Int
  ref : Nat
deriving DecidableEq

/-- Heap form of `get_element`, reading the dict at index `i`. -/
def hget (σ : Store) (i : Nat) (r c : Int) : Int :=
  dictGet (σ.getD i []) (r, c)

/-- Heap form of `set_element`, mutating the dict at index `i` in place. -/
def hset (σ : Store) (i : Nat) (r c v : Int) : Store :=
  if v ≠ 0 then σ.set i (dictInsert (σ.getD i []) (r, c) v)
  else if ((σ.getD i []).find? (fun e => e.1 = (r, c))).isSome then
    σ.set i (dictRemove (σ.getD i []) (r, c))
  else σ

/-- Heap form of `add`: the result object allocates a fresh dict holding a
copy of `a`'s entries (`result.data = self.data.copy()`), then the loop
mutates only that fresh dict. -/
def addH (σ : Store) (a b : MatRef) : Except String (Store × MatRef) :=
  if a.rows ≠ b.rows ∨ a.cols ≠ b.cols then
    .error "Matrix dimensions must match for addition"
  else
    let i := σ.length
    let σ1 := σ ++ [σ.getD a.ref []]
    let σ2 := (σ.getD b.ref []).foldl
      (fun s e => hset s i e.1.1 e.1.2 (hget s i e.1.1 e.1.2 + e.2)) σ1
    .ok (σ2, { rows := a.rows, cols := a.cols, ref := i })

/-- Heap form of `subtract`. -/
def subtractH (σ : Store) (a b : MatRef) : Except String (Store × MatRef) :=
  if a.rows ≠ b.rows ∨ a.cols ≠ b.cols then
    .error "Matrix dimensions must match for subtraction"
  else
    let i := σ.length
    let σ1 := σ ++ [σ.getD a.ref []]
    let σ2 := (σ.getD b.ref []).foldl
      (fun s e => hset s i e.1.1 e.1.2 (hget s i e.1.1 e.1.2 - e.2)) σ1
    .ok (σ2, { rows := a.rows, cols := a.cols, ref := i })

/-- Heap form of `multiply`: the result object allocates a fresh empty
dict, then the nested loops mutate only that dict, reading `b` through the
store. -/
def multiplyH (σ : Store) (a b : MatRef) : Except String (Store × MatRef) :=
  if a.cols ≠ b.rows then
    .error "Matrix dimensions do not allow multiplication"
  else
    let i := σ.length
    let σ1 := σ ++ [[]]
    let σ2 := (σ.getD a.ref []).foldl
      (fun s e =>
        (List.range b.cols.toNat).foldl
          (fun s2 (c2 : Nat) =>
            let v2 := hget s2 b.ref e.1.2 (c2 : Int)
            if v2 ≠ 0 then
              hset s2 i e.1.1 (c2 : Int)
                (hget s2 i e.1.1 (c2 : Int) + e.2 * v2)
            else s2)
          s)
      σ1
    .ok (σ2, { rows := a.rows, cols := b.cols, ref := i })

/-- Example matrix: the 2x2 matrix with a single entry 1 at (0, 0). -/
def ex1A : SparseMatrix := { rows := 2, cols := 2, data := [((0, 0), 1)] }

/-- Example matrix: a 2x2 matrix with entries 2 at (0, 0) and 3 at (1, 1). -/
def ex1B : SparseMatrix :=
  { rows := 2, cols := 2, data := [((0, 0), 2), ((1, 1), 3)] }

/-- The 2x2 matrix `[[1, 0], [0, 2]]` from the spec's multiply example. -/
def ex2A : SparseMatrix :=
  { rows := 2, cols := 2, data := [((0, 0), 1), ((1, 1), 2)] }

/-- The 2x2 matrix `[[3, 4], [0, 5]]` from the spec's multiply example. -/
def ex2B : SparseMatrix :=
  { rows := 2, cols := 2, data := [((0, 0), 3), ((0, 1), 4), ((1, 1), 5)] }

/-- Example matrix for the round-trip law. -/
def ex4M : SparseMatrix :=
  { rows := 2, cols := 3, data := [((0, 1), 5), ((1, 0), -2)] }

/-- Example matrix for the `set_element` invariant. -/
def ex6M : SparseMatrix := { rows := 1, cols := 1, data := [((0, 0), 4)] }

/-- Example left operand for the add-then-subtract law. -/
def ex7A : SparseMatrix :=
  { rows := 2, cols := 2, data := [((0, 0), 1), ((0, 1), -3)] }

/-- Example right operand for the add-then-subtract law. -/
def ex7B : SparseMatrix :=
  { rows := 2, cols := 2, data := [((0, 1), 3), ((1, 1), 7)] }

/-- Example store holding the dictionaries of two 1x1 matrices. -/
def ex8S : Store := [[((0, 0), 1)], [((0, 0), 2)]]

/-- Example matrix object referring to dictionary 0 of the store. -/
def ex8A : MatRef := { rows := 1, cols := 1, ref := 0 }

/-- Example matrix object referring to dictionary 1 of the store. -/
def ex8B : MatRef := { rows := 1, cols := 1, ref := 1 }

/-- Example matrix for the serialization-order law. -/
def ex9M : SparseMatrix :=
  { rows := 2, cols := 6, data := [((1, 0), 7), ((0, 5), 8), ((0, 1), 9)] }

/-- Example file lines without any dimension assignment. -/
def ex10L : List Str := [strL "(2, 3, 7)", strL ""]

/-! ### Lemmas: the dictionary model -/

theorem dictGet_nil (k : Key) : dictGet [] k = 0 := rfl

theorem dictGet_cons (e : Entry) (t : List Entry) (k : Key) :
    dictGet (e :: t) k = if e.1 = k then e.2 else dictGet t k := by
  by_cases h : e.1 = k
  · rw [dictGet, List.find?_cons_of_pos _ (by simpa using h)]
    simp [h]
  · rw [dictGet, List.find?_cons_of_neg _ (by simpa using h), if_neg h]
    rfl

theorem dictGet_insert_self (l : List Entry) (k : Key) (v : Int) :
    dictGet (dictInsert l k v) k = v := by
  induction l with
  | nil => simp [dictInsert, dictGet_cons]
  | cons e t ih =>
    by_cases h : e.1 = k
    · simp [dictInsert, h, dictGet_cons]
    · simp [dictInsert, h, dictGet_cons, ih]

theorem dictGet_insert_ne (l : List Entry) (k k' : Key) (v : Int)
    (h : k' ≠ k) : dictGet (dictInsert l k v) k' = dictGet l k' := by
  induction l with
  | nil =>
    show dictGet [(k, v)] k' = dictGet [] k'
    rw [dictGet_cons, if_neg (fun hh : k = k' => h hh.symm)]
  | cons e t ih =>
    by_cases he : e.1 = k
    · rw [dictInsert, if_pos he, dictGet_cons, dictGet_cons,
        if_neg (fun hh : k = k' => h hh.symm),
        if_neg (by rw [he]; exact fun hh : k = k' => h hh.symm)]
    · rw [dictInsert, if_neg he, dictGet_cons, dictGet_cons, ih]

theorem dictGet_remove_self (l : List Entry) (k : Key) :
    dictGet (dictRemove l k) k = 0 := by
  induction l with
  | nil => rfl
  | cons e t ih =>
    by_cases h : e.1 = k
    · simpa [dictRemove, List.filter_cons, h] using ih
    · simpa [dictRemove, List.filter_cons, h, dictGet_cons] using ih

theorem dictGet_remove_ne (l : List Entry) (k k' : Key) (h : k' ≠ k) :
    dictGet (dictRemove l k) k' = dictGet l k' := by
  induction l with
  | nil => rfl
  | cons e t ih =>
    rw [dictRemove, List.filter_cons]
    by_cases he : e.1 = k
    · rw [if_neg (by simp [he]), dictGet_cons,
        if_neg (by rw [he]; exact fun hh : k = k' => h hh.symm)]
      exact ih
    · rw [if_pos (by simpa using he), dictGet_cons, dictGet_cons]
      by_cases he' : e.1 = k'
      · rw [if_pos he', if_pos he']
      · rw [if_neg he', if_neg he']
        exact ih

theorem dictGet_eq_zero_of_find?_none (l : List Entry) (k : Key)
    (h : ¬(l.find? (fun e => e.1 = k)).isSome = true) : dictGet l k = 0 := by
  unfold dictGet
  cases hf : l.find? (fun e => e.1 = k) with
  | none => rfl
  | some e => rw [hf] at h; simp at h

theorem mem_dictInsert (l : List Entry) (k : Key) (v : Int) (e : Entry)
    (h : e ∈ dictInsert l k v) : e ∈ l ∨ e = (k, v) := by
  induction l with
  | nil => simpa [dictInsert] using h
  | cons a t ih =>
    by_cases ha : a.1 = k
    · rw [dictInsert, if_pos ha] at h
      rcases List.mem_cons.mp h with h1 | h1
      · right; exact h1
      · left; exact List.mem_cons_of_mem _ h1
    · rw [dictInsert, if_neg ha] at h
      rcases List.mem_cons.mp h with h1 | h1
      · left; exact h1 ▸ List.mem_cons_self _ _
      · rcases ih h1 with h2 | h2
        · left; exact List.mem_cons_of_mem _ h2
        · right; exact h2

theorem keysNodup_dictInsert (l : List Entry) (k : Key) (v : Int)
    (h : KeysNodup l) : KeysNodup (dictInsert l k v) := by
  induction l with
  | nil => simp [dictInsert, KeysNodup]
  | cons a t ih =>
    rw [KeysNodup, List.pairwise_cons] at h
    by_cases ha : a.1 = k
    · rw [dictInsert, if_pos ha, KeysNodup, List.pairwise_cons]
      exact ⟨fun b hb => ha ▸ h.1 b hb, h.2⟩
    · rw [dictInsert, if_neg ha, KeysNodup, List.pairwise_cons]
      refine ⟨fun b hb => ?_, ih h.2⟩
      rcases mem_dictInsert _ _ _ _ hb with h1 | h1
      · exact h.1 b h1
      · rw [h1]; exact ha

theorem keysNodup_dictRemove (l : List Entry) (k : Key)
    (h : KeysNodup l) : KeysNodup (dictRemove l k) :=
  List.Pairwise.sublist (List.filter_sublist l) h

theorem noZeros_dictInsert (l : List Entry) (k : Key) (v : Int)
    (hl : NoZeros l) (hv : v ≠ 0) : NoZeros (dictInsert l k v) := by
  intro e he
  rcases mem_dictInsert _ _ _ _ he with h1 | h1
  · exact hl e h1
  · rw [h1]; exact hv

theorem noZeros_dictRemove (l : List Entry) (k : Key) (hl : NoZeros l) :
    NoZeros (dictRemove l k) :=
  fun e he => hl e (List.mem_of_mem_filter he)

theorem dictGet_eq_of_mem (l : List Entry) (k : Key) (v : Int)
    (hnd : KeysNodup l) (hm : (k, v) ∈ l) : dictGet l k = v := by
  induction l with
  | nil => cases hm
  | cons e t ih =>
    rw [KeysNodup, List.pairwise_cons] at hnd
    rcases List.mem_cons.mp hm with h1 | h1
    · rw [← h1, dictGet_cons, if_pos rfl]
    · have : e.1 ≠ k := hnd.1 (k, v) h1
      rw [dictGet_cons, if_neg this]
      exact ih hnd.2 h1

theorem dictGet_eq_zero_of_not_mem (l : List Entry) (k : Key)
    (h : ∀ v, (k, v) ∉ l) : dictGet l k = 0 := by
  unfold dictGet
  cases hf : l.find? (fun e => e.1 = k) with
  | none => rfl
  | some e =>
    have hm := List.mem_of_find?_eq_some hf
    have hp : e.1 = k := by simpa using List.find?_some hf
    have hm2 : (k, e.2) ∈ l := by rw [← hp]; exact hm
    exact absurd hm2 (h e.2)

theorem dictGet_perm (l l' : List Entry) (k : Key) (hnd : KeysNodup l)
    (hp : l.Perm l') : dictGet l k = dictGet l' k := by
  have hnd' : KeysNodup l' :=
    (hp.pairwise_iff (fun h => h ∘ Eq.symm)).mp hnd
  by_cases hm : ∃ v, (k, v) ∈ l
  · obtain ⟨v, hv⟩ := hm
    rw [dictGet_eq_of_mem l k v hnd hv,
      dictGet_eq_of_mem l' k v hnd' (hp.mem_iff.mp hv)]
  · push_neg at hm
    rw [dictGet_eq_zero_of_not_mem l k hm,
      dictGet_eq_zero_of_not_mem l' k (fun v => (hp.mem_iff.not.mp (hm v)))]

/-! ### Lemmas: `get_element` and `set_element` -/

theorem get_set_self (m : SparseMatrix) (r c v : Int) :
    (m.set_element r c v).get_element r c = v := by
  unfold SparseMatrix.set_element SparseMatrix.get_element
  split
  · exact dictGet_insert_self _ _ _
  next hv =>
    have hv0 : v = 0 := by omega
    split
    · rw [hv0]; exact dictGet_remove_self _ _
    next hf =>
      rw [hv0]
      exact dictGet_eq_zero_of_find?_none _ _ hf

theorem get_set_ne (m : SparseMatrix) (r c v r' c' : Int)
    (h : (r', c') ≠ (r, c)) :
    (m.set_element r c v).get_element r' c' = m.get_element r' c' := by
  unfold SparseMatrix.set_element SparseMatrix.get_element
  split
  · exact dictGet_insert_ne _ _ _ _ h
  · split
    · exact dictGet_remove_ne _ _ _ h
    · rfl

theorem set_rows (m : SparseMatrix) (r c v : Int) :
    (m.set_element r c v).rows = m.rows := by
  unfold SparseMatrix.set_element
  split
  · rfl
  · split <;> rfl

theorem set_cols (m : SparseMatrix) (r c v : Int) :
    (m.set_element r c v).cols = m.cols := by
  unfold SparseMatrix.set_element
  split
  · rfl
  · split <;> rfl

theorem keysNodup_set (m : SparseMatrix) (r c v : Int)
    (h : KeysNodup m.data) : KeysNodup (m.set_element r c v).data := by
  unfold SparseMatrix.set_element
  split
  · exact keysNodup_dictInsert _ _ _ h
  · split
    · exact keysNodup_dictRemove _ _ h
    · exact h

theorem noZeros_set (m : SparseMatrix) (r c v : Int)
    (h : NoZeros m.data) : NoZeros (m.set_element r c v).data := by
  unfold SparseMatrix.set_element
  split
  next hv => exact noZeros_dictInsert _ _ _ h hv
  · split
    · exact noZeros_dictRemove _ _ h
    · exact h

/-! ### Lemmas: the `add` and `subtract` folds -/

theorem foldl_rows {α : Type} (f : SparseMatrix → α → SparseMatrix)
    (hf : ∀ m e, (f m e).rows = m.rows) (l : List α) (m : SparseMatrix) :
    (l.foldl f m).rows = m.rows := by
  induction l generalizing m with
  | nil => rfl
  | cons e t ih => rw [List.foldl_cons, ih, hf]

theorem foldl_cols {α : Type} (f : SparseMatrix → α → SparseMatrix)
    (hf : ∀ m e, (f m e).cols = m.cols) (l : List α) (m : SparseMatrix) :
    (l.foldl f m).cols = m.cols := by
  induction l generalizing m with
  | nil => rfl
  | cons e t ih => rw [List.foldl_cons, ih, hf]

theorem addFold_get (l : List Entry) (P : SparseMatrix) (r c : Int)
    (hnd : KeysNodup l) :
    (l.foldl addStep P).get_element r c
      = P.get_element r c + dictGet l (r, c) := by
  induction l generalizing P with
  | nil => simp [dictGet_nil]
  | cons e t ih =>
    rw [KeysNodup, List.pairwise_cons] at hnd
    rw [List.foldl_cons, ih _ hnd.2, dictGet_cons]
    by_cases hk : e.1 = (r, c)
    · rw [if_pos hk]
      have h0 : dictGet t (r, c) = 0 :=
        dictGet_eq_zero_of_not_mem t (r, c)
          (fun v hv => absurd hk (hnd.1 ((r, c), v) hv))
      have hr : e.1.1 = r := by rw [hk]
      have hc : e.1.2 = c := by rw [hk]
      rw [h0, addStep, hr, hc, get_set_self]
      ring
    · rw [if_neg hk]
      have hne : (r, c) ≠ (e.1.1, e.1.2) := fun hh => hk (hh.symm)
      rw [addStep, get_set_ne _ _ _ _ _ _ hne]

theorem subFold_get (l : List Entry) (P : SparseMatrix) (r c : Int)
    (hnd : KeysNodup l) :
    (l.foldl subStep P).get_element r c
      = P.get_element r c - dictGet l (r, c) := by
  induction l generalizing P with
  | nil => simp [dictGet_nil]
  | cons e t ih =>
    rw [KeysNodup, List.pairwise_cons] at hnd
    rw [List.foldl_cons, ih _ hnd.2, dictGet_cons]
    by_cases hk : e.1 = (r, c)
    · rw [if_pos hk]
      have h0 : dictGet t (r, c) = 0 :=
        dictGet_eq_zero_of_not_mem t (r, c)
          (fun v hv => absurd hk (hnd.1 ((r, c), v) hv))
      have hr : e.1.1 = r := by rw [hk]
      have hc : e.1.2 = c := by rw [hk]
      rw [h0, subStep, hr, hc, get_set_self]
      ring
    · rw [if_neg hk]
      have hne : (r, c) ≠ (e.1.1, e.1.2) := fun hh => hk (hh.symm)
      rw [subStep, get_set_ne _ _ _ _ _ _ hne]

theorem add_ok_spec (a b : SparseMatrix) (hB : KeysNodup b.data)
    (h1 : a.rows = b.rows) (h2 : a.cols = b.cols) :
    ∃ C, a.add b = .ok C ∧ C.rows = a.rows ∧ C.cols = a.cols ∧
      (∀ r c, C.get_element r c = a.get_element r c + b.get_element r c) ∧
      (KeysNodup a.data → KeysNodup C.data) := by
  refine ⟨b.data.foldl addStep { rows := a.rows, cols := a.cols, data := a.data },
    ?_, ?_, ?_, ?_, ?_⟩
  · unfold SparseMatrix.add
    rw [if_neg (by simp [h1, h2])]
  · exact foldl_rows _ (fun m e => set_rows _ _ _ _) _ _
  · exact foldl_cols _ (fun m e => set_cols _ _ _ _) _ _
  · intro r c
    rw [addFold_get _ _ _ _ hB]
    rfl
  · intro hA
    have : ∀ (l : List Entry) (P : SparseMatrix), KeysNodup P.data →
        KeysNodup (l.foldl addStep P).data := by
      intro l
      induction l with
      | nil => intro P h; exact h
      | cons e t ih =>
        intro P h
        exact ih _ (keysNodup_set _ _ _ _ h)
    exact this _ _ hA

theorem subtract_ok_spec (a b : SparseMatrix) (hB : KeysNodup b.data)
    (h1 : a.rows = b.rows) (h2 : a.cols = b.cols) :
    ∃ C, a.subtract b = .ok C ∧ C.rows = a.rows ∧ C.cols = a.cols ∧
      (∀ r c, C.get_element r c = a.get_element r c - b.get_element r c) := by
  refine ⟨b.data.foldl subStep { rows := a.rows, cols := a.cols, data := a.data },
    ?_, ?_, ?_, ?_⟩
  · unfold SparseMatrix.subtract
    rw [if_neg (by simp [h1, h2])]
  · exact foldl_rows _ (fun m e => set_rows _ _ _ _) _ _
  · exact foldl_cols _ (fun m e => set_cols _ _ _ _) _ _
  · intro r c
    rw [subFold_get _ _ _ _ hB]
    rfl

theorem add_err (a b : SparseMatrix)
    (h : ¬(a.rows = b.rows ∧ a.cols = b.cols)) :
    a.add b = .error "Matrix dimensions must match for addition" := by
  unfold SparseMatrix.add
  rw [if_pos (by tauto)]

theorem subtract_err (a b : SparseMatrix)
    (h : ¬(a.rows = b.rows ∧ a.cols = b.cols)) :
    a.subtract b = .error "Matrix dimensions must match for subtraction" := by
  unfold SparseMatrix.subtract
  rw [if_pos (by tauto)]

/-! ### Lemmas: the `multiply` folds -/

theorem mulInnerFold_get (b : SparseMatrix) (r1 c1 v1 : Int) (n : Nat)
    (P : SparseMatrix) (r c : Int) :
    ((List.range n).foldl
      (fun q (c2 : Nat) =>
        if b.get_element c1 (c2 : Int) ≠ 0 then
          q.set_element r1 (c2 : Int)
            (q.get_element r1 (c2 : Int) + v1 * b.get_element c1 (c2 : Int))
        else q) P).get_element r c
      = P.get_element r c +
        (if r = r1 ∧ 0 ≤ c ∧ c < (n : Int) then v1 * b.get_element c1 c
         else 0) := by
  induction n with
  | zero =>
    rw [List.range_zero, List.foldl_nil, if_neg (by push_cast; omega)]
    ring
  | succ n ih =>
    rw [List.range_succ, List.foldl_append, List.foldl_cons, List.foldl_nil]
    by_cases hv : b.get_element c1 (n : Int) ≠ 0
    · rw [if_pos hv]
      by_cases hrc : (r, c) = (r1, (n : Int))
      · have hr : r = r1 := by rw [Prod.mk.injEq] at hrc; exact hrc.1
        have hc : c = (n : Int) := by rw [Prod.mk.injEq] at hrc; exact hrc.2
        subst hr
        subst hc
        rw [get_set_self, ih, if_neg (by omega),
          if_pos (by push_cast; omega)]
        ring
      · rw [get_set_ne _ _ _ _ _ _ hrc, ih]
        by_cases hin : r = r1 ∧ 0 ≤ c ∧ c < (n : Int)
        · rw [if_pos hin, if_pos (by push_cast at hin ⊢; omega)]
        · rw [if_neg hin, if_neg (by
            intro hcon
            apply hrc
            have hcn : c = (n : Int) := by
              rcases hcon with ⟨h1, h2, h3⟩
              by_contra hne
              exact hin ⟨h1, h2, by push_cast at h3 ⊢; omega⟩
            rw [hcon.1, hcn])]
    · rw [if_neg hv]
      push_neg at hv
      rw [ih]
      by_cases hin : r = r1 ∧ 0 ≤ c ∧ c < (n : Int)
      · rw [if_pos hin, if_pos (by push_cast at hin ⊢; omega)]
      · by_cases hin2 : r = r1 ∧ 0 ≤ c ∧ c < ((n : Nat) + 1 : Int)
        · have hc : c = (n : Int) := by
            rcases hin2 with ⟨h1, h2, h3⟩
            by_contra hne
            exact hin ⟨h1, h2, by omega⟩
          rw [if_neg hin, if_pos (by push_cast at hin2 ⊢; omega), hc, hv]
          ring
        · rw [if_neg hin, if_neg (by push_cast at hin2 ⊢; omega)]

theorem mulInner_get (b : SparseMatrix) (r1 c1 v1 : Int) (P : SparseMatrix)
    (r c : Int) :
    (mulInner b r1 c1 v1 P).get_element r c
      = P.get_element r c +
        (if r = r1 ∧ 0 ≤ c ∧ c < b.cols then v1 * b.get_element c1 c
         else 0) := by
  have h := mulInnerFold_get b r1 c1 v1 b.cols.toNat P r c
  have hcond : (r = r1 ∧ 0 ≤ c ∧ c < ((b.cols.toNat : Nat) : Int))
      ↔ (r = r1 ∧ 0 ≤ c ∧ c < b.cols) := by omega
  rw [if_congr hcond rfl rfl] at h
  exact h

theorem mulInner_rows (b : SparseMatrix) (r1 c1 v1 : Int) (P : SparseMatrix) :
    (mulInner b r1 c1 v1 P).rows = P.rows := by
  unfold mulInner
  refine foldl_rows _ ?_ _ _
  intro m e
  dsimp only
  split
  · exact set_rows _ _ _ _
  · rfl

theorem mulInner_cols (b : SparseMatrix) (r1 c1 v1 : Int) (P : SparseMatrix) :
    (mulInner b r1 c1 v1 P).cols = P.cols := by
  unfold mulInner
  refine foldl_cols _ ?_ _ _
  intro m e
  dsimp only
  split
  · exact set_cols _ _ _ _
  · rfl

theorem mulFold_get (b : SparseMatrix) (l : List Entry) (P : SparseMatrix)
    (r c : Int) :
    (l.foldl (fun q e => mulInner b e.1.1 e.1.2 e.2 q) P).get_element r c
      = P.get_element r c + mulContrib b r c l := by
  induction l generalizing P with
  | nil => simp [mulContrib]
  | cons e t ih =>
    rw [List.foldl_cons, ih, mulInner_get]
    have hct : mulContrib b r c (e :: t)
        = (if r = e.1.1 ∧ 0 ≤ c ∧ c < b.cols then e.2 * b.get_element e.1.2 c
           else 0) + mulContrib b r c t := by
      rw [mulContrib, mulContrib, List.map_cons, List.sum_cons]
    rw [hct]
    ring

theorem mulContrib_eq_zero (b : SparseMatrix) (r c : Int) (l : List Entry)
    (h : ¬(0 ≤ c ∧ c < b.cols)) : mulContrib b r c l = 0 := by
  rw [mulContrib]
  apply List.sum_eq_zero
  intro x hx
  obtain ⟨e, he, rfl⟩ := List.mem_map.mp hx
  rw [if_neg (by tauto)]

theorem mulContrib_eq_sum (b : SparseMatrix) (r c : Int) (l : List Entry)
    (n : Nat) (hnd : KeysNodup l)
    (hbd : ∀ e ∈ l, 0 ≤ e.1.2 ∧ e.1.2 < (n : Int))
    (hc : 0 ≤ c ∧ c < b.cols) :
    mulContrib b r c l
      = ∑ k ∈ Finset.range n,
          dictGet l (r, (k : Int)) * b.get_element (k : Int) c := by
  induction l with
  | nil =>
    rw [mulContrib]
    simp [dictGet_nil]
  | cons e t ih =>
    rw [KeysNodup, List.pairwise_cons] at hnd
    have hbdt : ∀ x ∈ t, 0 ≤ x.1.2 ∧ x.1.2 < (n : Int) :=
      fun x hx => hbd x (List.mem_cons_of_mem _ hx)
    have ihe := ih hnd.2 hbdt
    have hct : mulContrib b r c (e :: t)
        = (if r = e.1.1 ∧ 0 ≤ c ∧ c < b.cols then e.2 * b.get_element e.1.2 c
           else 0) + mulContrib b r c t := by
      rw [mulContrib, mulContrib, List.map_cons, List.sum_cons]
    by_cases hr : e.1.1 = r
    · obtain ⟨hj0, hjn⟩ := hbd e (List.mem_cons_self _ _)
      have hjcast : ((e.1.2.toNat : Nat) : Int) = e.1.2 :=
        Int.toNat_of_nonneg hj0
      have hjmem : e.1.2.toNat ∈ Finset.range n :=
        Finset.mem_range.mpr (by omega)
      have hkey : e.1 = (r, ((e.1.2.toNat : Nat) : Int)) := by
        rw [hjcast, ← hr]
      have hfj : dictGet (e :: t) (r, ((e.1.2.toNat : Nat) : Int)) = e.2 := by
        rw [dictGet_cons, if_pos hkey]
      have hgj : dictGet t (r, ((e.1.2.toNat : Nat) : Int)) = 0 := by
        apply dictGet_eq_zero_of_not_mem
        intro v hv
        exact (hnd.1 _ hv) hkey
      have hfg : ∀ k ∈ (Finset.range n).erase e.1.2.toNat,
          dictGet (e :: t) (r, (k : Int)) * b.get_element (k : Int) c
            = dictGet t (r, (k : Int)) * b.get_element (k : Int) c := by
        intro k hk
        obtain ⟨hkj, _⟩ := Finset.mem_erase.mp hk
        rw [dictGet_cons, if_neg ?_]
        intro hEq
        apply hkj
        have h2 : e.1.2 = (k : Int) := by rw [hEq]
        omega
      calc mulContrib b r c (e :: t)
          = e.2 * b.get_element e.1.2 c + mulContrib b r c t := by
            rw [hct, if_pos ⟨hr.symm, hc⟩]
        _ = dictGet (e :: t) (r, ((e.1.2.toNat : Nat) : Int))
              * b.get_element ((e.1.2.toNat : Nat) : Int) c
            + ∑ k ∈ Finset.range n,
                dictGet t (r, (k : Int)) * b.get_element (k : Int) c := by
            rw [ihe, hfj, hjcast]
        _ = dictGet (e :: t) (r, ((e.1.2.toNat : Nat) : Int))
              * b.get_element ((e.1.2.toNat : Nat) : Int) c
            + ∑ k ∈ (Finset.range n).erase e.1.2.toNat,
                dictGet t (r, (k : Int)) * b.get_element (k : Int) c := by
            rw [← Finset.add_sum_erase _ _ hjmem, hgj, zero_mul, zero_add]
        _ = dictGet (e :: t) (r, ((e.1.2.toNat : Nat) : Int))
              * b.get_element ((e.1.2.toNat : Nat) : Int) c
            + ∑ k ∈ (Finset.range n).erase e.1.2.toNat,
                dictGet (e :: t) (r, (k : Int)) * b.get_element (k : Int) c := by
            rw [Finset.sum_congr rfl hfg]
        _ = ∑ k ∈ Finset.range n,
              dictGet (e :: t) (r, (k : Int)) * b.get_element (k : Int) c :=
            Finset.add_sum_erase (Finset.range n)
              (fun k => dictGet (e :: t) (r, (k : Int))
                * b.get_element (k : Int) c) hjmem
    · have hdg : ∀ k : Nat,
          dictGet (e :: t) (r, (k : Int)) = dictGet t (r, (k : Int)) := by
        intro k
        rw [dictGet_cons, if_neg (fun hEq => hr (by rw [hEq]))]
      rw [hct, if_neg (fun hcon => hr hcon.1.symm), zero_add, ihe]
      exact Finset.sum_congr rfl (fun k _ => by rw [hdg k])

theorem multiply_err (a b : SparseMatrix) (h : a.cols ≠ b.rows) :
    a.multiply b = .error "Matrix dimensions do not allow multiplication" := by
  unfold SparseMatrix.multiply
  rw [if_pos h]

theorem multiply_ok_spec (a b : SparseMatrix) (hA : KeysNodup a.data)
    (hAb : InBounds a) (hBb : InBounds b) (h : a.cols = b.rows) :
    ∃ C, a.multiply b = .ok C ∧ C.rows = a.rows ∧ C.cols = b.cols ∧
      ∀ r c, C.get_element r c = denseEntry a b r c := by
  refine ⟨a.data.foldl (fun q e => mulInner b e.1.1 e.1.2 e.2 q)
    { rows := a.rows, cols := b.cols, data := [] }, ?_, ?_, ?_, ?_⟩
  · unfold SparseMatrix.multiply
    rw [if_neg (by omega)]
  · exact foldl_rows _ (fun m e => mulInner_rows _ _ _ _ _) _ _
  · exact foldl_cols _ (fun m e => mulInner_cols _ _ _ _ _) _ _
  · intro r c
    rw [mulFold_get]
    have hP : SparseMatrix.get_element
        { rows := a.rows, cols := b.cols, data := [] } r c = 0 := rfl
    rw [hP, zero_add]
    by_cases hc : 0 ≤ c ∧ c < b.cols
    · rw [mulContrib_eq_sum b r c a.data a.cols.toNat hA
        (fun e he => by have := hAb e he; omega) hc]
      rw [denseEntry]
      rfl
    · rw [mulContrib_eq_zero b r c a.data hc, denseEntry]
      symm
      apply Finset.sum_eq_zero
      intro k _
      have hb0 : b.get_element (k : Int) c = 0 := by
        apply dictGet_eq_zero_of_not_mem
        intro v hv
        have := hBb ((((k : Nat) : Int), c), v) hv
        exact hc ⟨this.2.2.1, this.2.2.2⟩
      rw [hb0, mul_zero]

/-! ### Lemmas: digits and integer printing/parsing -/

theorem digitChar_isDigit (d : Nat) (h : d < 10) :
    (Nat.digitChar d).isDigit = true := by
  interval_cases d <;> decide

theorem digitChar_toNat (d : Nat) (h : d < 10) :
    (Nat.digitChar d).toNat = 48 + d := by
  interval_cases d <;> decide

theorem natDigsF_mem (f n : Nat) :
    ∀ ch ∈ natDigsF f n, ∃ d, d < 10 ∧ ch = Nat.digitChar d := by
  induction f generalizing n with
  | zero => intro ch hch; cases hch
  | succ f ih =>
    intro ch hch
    simp only [natDigsF] at hch
    split at hch
    · next h =>
      rcases List.mem_singleton.mp hch with rfl
      exact ⟨n, h, rfl⟩
    · rcases List.mem_append.mp hch with h1 | h1
      · exact ih _ ch h1
      · rcases List.mem_singleton.mp h1 with rfl
        exact ⟨n % 10, by omega, rfl⟩

theorem natDigs_mem (n : Nat) :
    ∀ ch ∈ natDigs n, ∃ d, d < 10 ∧ ch = Nat.digitChar d :=
  natDigsF_mem (n + 1) n

theorem natDigs_ne_nil (n : Nat) : natDigs n ≠ [] := by
  rw [natDigs]
  simp only [natDigsF]
  split <;> simp

theorem natDigsF_congr (f1 : Nat) : ∀ f2 n : Nat, n < f1 → n < f2 →
    natDigsF f1 n = natDigsF f2 n := by
  induction f1 with
  | zero => intro f2 n h1 h2; omega
  | succ f ih =>
    intro f2 n h1 h2
    cases f2 with
    | zero => omega
    | succ f2 =>
      simp only [natDigsF]
      by_cases h : n < 10
      · rw [if_pos h, if_pos h]
      · rw [if_neg h, if_neg h, ih f2 (n / 10) (by omega) (by omega)]

theorem natDigs_eq (n : Nat) : natDigs n =
    if n < 10 then [Nat.digitChar n]
    else natDigs (n / 10) ++ [Nat.digitChar (n % 10)] := by
  by_cases h : n < 10
  · rw [if_pos h, natDigs]
    simp only [natDigsF]
    rw [if_pos h]
  · rw [if_neg h, natDigs, natDigs]
    show (if n < 10 then [Nat.digitChar n]
      else natDigsF n (n / 10) ++ [Nat.digitChar (n % 10)])
        = natDigsF (n / 10 + 1) (n / 10) ++ [Nat.digitChar (n % 10)]
    rw [if_neg h, natDigsF_congr n (n / 10 + 1) (n / 10) (by omega) (by omega)]

theorem pyDigitsAux_digits (l : List Char) (acc : Nat)
    (h : ∀ c ∈ l, c.isDigit = true) :
    pyDigitsAux l acc
      = some (l.foldl (fun a c => a * 10 + (c.toNat - 48)) acc) := by
  induction l generalizing acc with
  | nil => rfl
  | cons c t ih =>
    have hc : c.isDigit = true := h c (List.mem_cons_self _ _)
    have hne : ¬c = '_' := fun hEq => by
      rw [hEq] at hc; exact absurd hc (by decide)
    simp only [pyDigitsAux]
    rw [if_neg hne, if_pos hc, List.foldl_cons]
    exact ih _ (fun x hx => h x (List.mem_cons_of_mem _ hx))

theorem pyDigits_digits (l : List Char) (hne : l ≠ [])
    (h : ∀ c ∈ l, c.isDigit = true) :
    pyDigits l = some (l.foldl (fun a c => a * 10 + (c.toNat - 48)) 0) := by
  cases l with
  | nil => exact absurd rfl hne
  | cons c t =>
    have hc : c.isDigit = true := h c (List.mem_cons_self _ _)
    simp only [pyDigits]
    rw [if_pos hc,
      pyDigitsAux_digits t _ (fun x hx => h x (List.mem_cons_of_mem _ hx)),
      List.foldl_cons]
    norm_num

theorem foldl_natDigs (n : Nat) : ∀ acc : Nat,
    (natDigs n).foldl (fun a c => a * 10 + (c.toNat - 48)) acc
      = acc * 10 ^ (natDigs n).length + n := by
  induction n using Nat.strong_induction_on with
  | _ n ih =>
    intro acc
    rw [natDigs_eq]
    by_cases h : n < 10
    · rw [if_pos h]
      simp only [List.foldl_cons, List.foldl_nil, List.length_singleton,
        pow_one]
      rw [digitChar_toNat n h]
      omega
    · rw [if_neg h, List.foldl_append, List.foldl_cons, List.foldl_nil,
        ih (n / 10) (by omega) acc, digitChar_toNat (n % 10) (by omega),
        List.length_append, List.length_singleton, pow_succ]
      have h10 : n / 10 * 10 + n % 10 = n := by omega
      have h48 : 48 + n % 10 - 48 = n % 10 := by omega
      rw [h48]
      calc (acc * 10 ^ (natDigs (n / 10)).length + n / 10) * 10 + n % 10
          = acc * (10 ^ (natDigs (n / 10)).length * 10)
            + (n / 10 * 10 + n % 10) := by ring
        _ = acc * (10 ^ (natDigs (n / 10)).length * 10) + n := by rw [h10]

theorem pyDigits_natDigs (n : Nat) : pyDigits (natDigs n) = some n := by
  rw [pyDigits_digits _ (natDigs_ne_nil n) (fun c hc => by
      obtain ⟨d, hd, rfl⟩ := natDigs_mem n c hc
      exact digitChar_isDigit d hd),
    foldl_natDigs n 0]
  simp

/-! ### Lemmas: stripping and splitting -/

theorem pyStrip_eq_self (l : Str)
    (h1 : ∀ c, l.head? = some c → isPyWS c = false)
    (h2 : ∀ c, l.getLast? = some c → isPyWS c = false) : pyStrip l = l := by
  cases l with
  | nil => rfl
  | cons c t =>
    rw [pyStrip, List.dropWhile_cons_of_neg (by simp [h1 c rfl])]
    cases hr : (c :: t).reverse with
    | nil => simp at hr
    | cons d s =>
      have hd : (c :: t).getLast? = some d := by
        rw [← List.head?_reverse, hr]
        rfl
      rw [List.dropWhile_cons_of_neg (by simp [h2 d hd]), ← hr,
        List.reverse_reverse]

theorem pyStrip_eq_self_of_all (l : Str) (h : ∀ c ∈ l, isPyWS c = false) :
    pyStrip l = l := by
  apply pyStrip_eq_self
  · intro c hc
    cases l with
    | nil => cases hc
    | cons a t =>
      rw [List.head?_cons, Option.some.injEq] at hc
      subst hc
      exact h a (List.mem_cons_self _ _)
  · intro c hc
    exact h c (List.mem_of_mem_getLast? hc)

theorem pyStrip_cons_ws (c : Char) (l : Str) (h : isPyWS c = true) :
    pyStrip (c :: l) = pyStrip l := by
  rw [pyStrip, pyStrip, List.dropWhile_cons_of_pos h]

theorem splitOn_ne_nil (sep : Char) (s : Str) : splitOn sep s ≠ [] := by
  cases s with
  | nil => simp [splitOn]
  | cons c rest =>
    simp only [splitOn]
    by_cases h : c = sep
    · rw [if_pos h]
      simp
    · rw [if_neg h]
      cases hsp : splitOn sep rest with
      | nil => simp
      | cons a t => simp

theorem splitOn_no_sep (sep : Char) (l : Str) (h : sep ∉ l) :
    splitOn sep l = [l] := by
  induction l with
  | nil => rfl
  | cons c t ih =>
    have hc : ¬c = sep := fun hEq => h (hEq ▸ List.mem_cons_self _ _)
    simp only [splitOn]
    rw [if_neg hc, ih (fun hm => h (List.mem_cons_of_mem _ hm))]

theorem splitOn_append_sep (sep : Char) (a b : Str) (h : sep ∉ a) :
    splitOn sep (a ++ sep :: b) = a :: splitOn sep b := by
  induction a with
  | nil =>
    rw [List.nil_append]
    simp [splitOn]
  | cons c t ih =>
    have hc : ¬c = sep := fun hEq => h (hEq ▸ List.mem_cons_self _ _)
    rw [List.cons_append]
    simp only [splitOn]
    rw [if_neg hc, ih (fun hm => h (List.mem_cons_of_mem _ hm))]

theorem splitOn_joinNL (ls : List Str) (hne : ls ≠ [])
    (h : ∀ l ∈ ls, '\n' ∉ l) : splitOn '\n' (joinNL ls) = ls := by
  induction ls with
  | nil => exact absurd rfl hne
  | cons l rest ih =>
    cases rest with
    | nil => exact splitOn_no_sep _ _ (h l (List.mem_cons_self _ _))
    | cons l2 rest2 =>
      show splitOn '\n' (l ++ '\n' :: joinNL (l2 :: rest2)) = l :: l2 :: rest2
      rw [splitOn_append_sep _ _ _ (h l (List.mem_cons_self _ _)),
        ih (by simp) (fun x hx => h x (List.mem_cons_of_mem _ hx))]

/-! ### Lemmas: characters of printed integers -/

theorem intStr_chars (i : Int) : ∀ ch ∈ intStr i,
    ch = '-' ∨ ∃ d, d < 10 ∧ ch = Nat.digitChar d := by
  intro ch hch
  rw [intStr] at hch
  split at hch
  · rcases List.mem_cons.mp hch with h1 | h1
    · left; exact h1
    · right; exact natDigs_mem _ ch h1
  · right; exact natDigs_mem _ ch hch

theorem intStr_not_mem (i : Int) (x : Char) (hx1 : x ≠ '-')
    (hx2 : ∀ d, d < 10 → x ≠ Nat.digitChar d) : x ∉ intStr i := by
  intro hmem
  rcases intStr_chars i x hmem with h1 | ⟨d, hd, h1⟩
  · exact hx1 h1
  · exact hx2 d hd h1

theorem intStr_no_nl (i : Int) : '\n' ∉ intStr i :=
  intStr_not_mem i '\n' (by decide)
    (fun d hd => by interval_cases d <;> decide)

theorem intStr_no_comma (i : Int) : ',' ∉ intStr i :=
  intStr_not_mem i ',' (by decide)
    (fun d hd => by interval_cases d <;> decide)

theorem intStr_no_eq (i : Int) : '=' ∉ intStr i :=
  intStr_not_mem i '=' (by decide)
    (fun d hd => by interval_cases d <;> decide)

theorem intStr_not_ws (i : Int) : ∀ c ∈ intStr i, isPyWS c = false := by
  intro c hc
  rcases intStr_chars i c hc with h1 | ⟨d, hd, h1⟩
  · rw [h1]; decide
  · rw [h1]; interval_cases d <;> decide

theorem pyStrip_intStr (i : Int) : pyStrip (intStr i) = intStr i :=
  pyStrip_eq_self_of_all _ (intStr_not_ws i)

theorem pyInt?_intStr (i : Int) : pyInt? (intStr i) = some i := by
  by_cases hneg : i < 0
  · have hform : intStr i = '-' :: natDigs i.natAbs := by
      rw [intStr, if_pos hneg]
    rw [pyInt?, pyStrip_intStr, hform]
    show (if '-' = '-' then (pyDigits (natDigs i.natAbs)).map
        (fun n => -(n : Int))
      else if '-' = '+' then (pyDigits (natDigs i.natAbs)).map
        (fun n => (n : Int))
      else (pyDigits ('-' :: natDigs i.natAbs)).map (fun n => (n : Int)))
        = some i
    rw [if_pos rfl, pyDigits_natDigs]
    show some (-(i.natAbs : Int)) = some i
    congr 1
    omega
  · have hform : intStr i = natDigs i.toNat := by
      rw [intStr, if_neg hneg]
    cases hnd : natDigs i.toNat with
    | nil => exact absurd hnd (natDigs_ne_nil _)
    | cons c t =>
      have hcmem : c ∈ natDigs i.toNat := by
        rw [hnd]; exact List.mem_cons_self _ _
      obtain ⟨d, hd, rfl⟩ := natDigs_mem _ c hcmem
      rw [pyInt?, pyStrip_intStr, hform, hnd]
      show (if Nat.digitChar d = '-' then (pyDigits t).map
          (fun n => -(n : Int))
        else if Nat.digitChar d = '+' then (pyDigits t).map
          (fun n => (n : Int))
        else (pyDigits (Nat.digitChar d :: t)).map (fun n => (n : Int)))
          = some i
      rw [if_neg (by interval_cases d <;> decide),
        if_neg (by interval_cases d <;> decide), ← hnd,
        pyDigits_natDigs]
      show some ((i.toNat : Int)) = some i
      congr 1
      omega

/-! ### Lemmas: parsing the lines that `to_string` emits -/

theorem rowsLine_not_ws (M : SparseMatrix) :
    ∀ c ∈ rowsLine M, isPyWS c = false := by
  intro c hc
  rw [rowsLine] at hc
  rcases List.mem_append.mp hc with h1 | h1
  · fin_cases h1 <;> decide
  · exact intStr_not_ws _ c h1

theorem colsLine_not_ws (M : SparseMatrix) :
    ∀ c ∈ colsLine M, isPyWS c = false := by
  intro c hc
  rw [colsLine] at hc
  rcases List.mem_append.mp hc with h1 | h1
  · fin_cases h1 <;> decide
  · exact intStr_not_ws _ c h1

theorem isPrefixOf_self_append (p x : Str) : p.isPrefixOf (p ++ x) = true :=
  List.isPrefixOf_iff_prefix.mpr ⟨x, rfl⟩

theorem isPrefixOf_ne_head (a b : Char) (as bs : Str) (h : ¬a = b) :
    (a :: as).isPrefixOf (b :: bs) = false := by
  rw [List.isPrefixOf_cons₂]
  simp [h]

theorem loadLine_rowsLine (m M : SparseMatrix) :
    loadLine m (rowsLine M) = .ok { m with rows := M.rows } := by
  have hps : pyStrip (rowsLine M) = rowsLine M :=
    pyStrip_eq_self_of_all _ (rowsLine_not_ws M)
  have hne : rowsLine M ≠ [] := by rw [rowsLine, strL]; simp
  have hpre : (strL "rows=").isPrefixOf (rowsLine M) = true := by
    rw [rowsLine]
    exact isPrefixOf_self_append _ _
  have hsplit : splitOn '=' (rowsLine M) = [strL "rows", intStr M.rows] := by
    have hform : rowsLine M = strL "rows" ++ '=' :: intStr M.rows := rfl
    rw [hform, splitOn_append_sep _ _ _ (by decide),
      splitOn_no_sep _ _ (intStr_no_eq _)]
  simp only [loadLine]
  rw [hps, if_neg hne, if_pos hpre, hsplit]
  have hgd : ([strL "rows", intStr M.rows]).getD 1 [] = intStr M.rows := rfl
  rw [hgd, pyStrip_intStr, pyInt?_intStr]

theorem loadLine_colsLine (m M : SparseMatrix) :
    loadLine m (colsLine M) = .ok { m with cols := M.cols } := by
  have hps : pyStrip (colsLine M) = colsLine M :=
    pyStrip_eq_self_of_all _ (colsLine_not_ws M)
  have hne : colsLine M ≠ [] := by rw [colsLine, strL]; simp
  have hpre1 : (strL "rows=").isPrefixOf (colsLine M) = false := by
    have h1 : strL "rows=" = 'r' :: strL "ows=" := rfl
    have h2 : colsLine M = 'c' :: (strL "ols=" ++ intStr M.cols) := rfl
    rw [h1, h2]
    exact isPrefixOf_ne_head _ _ _ _ (by decide)
  have hpre2 : (strL "cols=").isPrefixOf (colsLine M) = true := by
    rw [colsLine]
    exact isPrefixOf_self_append _ _
  have hsplit : splitOn '=' (colsLine M) = [strL "cols", intStr M.cols] := by
    have hform : colsLine M = strL "cols" ++ '=' :: intStr M.cols := rfl
    rw [hform, splitOn_append_sep _ _ _ (by decide),
      splitOn_no_sep _ _ (intStr_no_eq _)]
  simp only [loadLine]
  rw [hps, if_neg hne, if_neg (by rw [hpre1]; decide), if_pos hpre2, hsplit]
  have hgd : ([strL "cols", intStr M.cols]).getD 1 [] = intStr M.cols := rfl
  rw [hgd, pyStrip_intStr, pyInt?_intStr]

theorem entryLine_eq (e : Entry) : entryLine e
    = ('(' :: (intStr e.1.1 ++ (strL ", " ++ (intStr e.1.2 ++
        (strL ", " ++ intStr e.2))))) ++ [')'] := by
  rw [entryLine]
  simp [List.append_assoc]

theorem pyStrip_entryLine (e : Entry) : pyStrip (entryLine e) = entryLine e := by
  apply pyStrip_eq_self
  · intro c hc
    rw [entryLine, List.head?_cons, Option.some.injEq] at hc
    subst hc
    decide
  · intro c hc
    rw [entryLine_eq, List.getLast?_concat, Option.some.injEq] at hc
    subst hc
    decide

theorem innerOf_entryLine (e : Entry) : innerOf (entryLine e)
    = intStr e.1.1 ++ (strL ", " ++ (intStr e.1.2 ++
        (strL ", " ++ intStr e.2))) := by
  rw [entryLine_eq, innerOf]
  show ((intStr e.1.1 ++ (strL ", " ++ (intStr e.1.2 ++
    (strL ", " ++ intStr e.2)))) ++ [')']).dropLast = _
  rw [List.dropLast_concat]

theorem splitOn_innerOf_entryLine (e : Entry) :
    splitOn ',' (innerOf (entryLine e))
      = [intStr e.1.1, ' ' :: intStr e.1.2, ' ' :: intStr e.2] := by
  rw [innerOf_entryLine]
  have h2 : intStr e.1.1 ++ (strL ", " ++ (intStr e.1.2 ++
      (strL ", " ++ intStr e.2)))
      = intStr e.1.1 ++ ',' :: ((' ' :: intStr e.1.2) ++
          ',' :: (' ' :: intStr e.2)) := rfl
  rw [h2, splitOn_append_sep _ _ _ (intStr_no_comma _),
    splitOn_append_sep _ _ _ (by
      intro hm
      rcases List.mem_cons.mp hm with h | h
      · exact absurd h (by decide)
      · exact intStr_no_comma _ h),
    splitOn_no_sep _ _ (by
      intro hm
      rcases List.mem_cons.mp hm with h | h
      · exact absurd h (by decide)
      · exact intStr_no_comma _ h)]

theorem loadLine_entryLine (m : SparseMatrix) (e : Entry) :
    loadLine m (entryLine e)
      = .ok { m with data := dictInsert m.data e.1 e.2 } := by
  have hpre1 : (strL "rows=").isPrefixOf (entryLine e) = false := by
    have h1 : strL "rows=" = 'r' :: strL "ows=" := rfl
    rw [h1, entryLine]
    exact isPrefixOf_ne_head _ _ _ _ (by decide)
  have hpre2 : (strL "cols=").isPrefixOf (entryLine e) = false := by
    have h1 : strL "cols=" = 'c' :: strL "ols=" := rfl
    rw [h1, entryLine]
    exact isPrefixOf_ne_head _ _ _ _ (by decide)
  have hhead : (entryLine e).head? = some '(' := rfl
  have hlast : (entryLine e).getLast? = some ')' := by
    rw [entryLine_eq, List.getLast?_concat]
  simp only [loadLine]
  rw [pyStrip_entryLine, if_neg (by rw [entryLine]; simp),
    if_neg (by rw [hpre1]; decide), if_neg (by rw [hpre2]; decide),
    if_pos ⟨hhead, hlast⟩, splitOn_innerOf_entryLine]
  have hlen : ([intStr e.1.1, ' ' :: intStr e.1.2,
      ' ' :: intStr e.2]).length = 3 := rfl
  rw [if_pos hlen]
  have hg0 : ([intStr e.1.1, ' ' :: intStr e.1.2,
      ' ' :: intStr e.2]).getD 0 [] = intStr e.1.1 := rfl
  have hg1 : ([intStr e.1.1, ' ' :: intStr e.1.2,
      ' ' :: intStr e.2]).getD 1 [] = ' ' :: intStr e.1.2 := rfl
  have hg2 : ([intStr e.1.1, ' ' :: intStr e.1.2,
      ' ' :: intStr e.2]).getD 2 [] = ' ' :: intStr e.2 := rfl
  rw [hg0, hg1, hg2, pyStrip_intStr, pyStrip_cons_ws _ _ (by decide),
    pyStrip_cons_ws _ _ (by decide), pyStrip_intStr, pyStrip_intStr,
    pyInt?_intStr, pyInt?_intStr, pyInt?_intStr]

/-! ### Lemmas: the load loop and serialization -/

theorem loadLoop_cons_ok (m m2 : SparseMatrix) (l : Str) (ls : List Str)
    (h : loadLine m l = .ok m2) :
    loadLoop m (l :: ls) = loadLoop m2 ls := by
  simp only [loadLoop]
  rw [h]

theorem dictInsert_fresh (acc : List Entry) (k : Key) (v : Int)
    (h : ∀ a ∈ acc, a.1 ≠ k) : dictInsert acc k v = acc ++ [(k, v)] := by
  induction acc with
  | nil => rfl
  | cons a t ih =>
    rw [dictInsert, if_neg (h a (List.mem_cons_self _ _)), List.cons_append,
      ih (fun x hx => h x (List.mem_cons_of_mem _ hx))]

theorem foldl_dictInsert_fresh (l : List Entry) : ∀ acc : List Entry,
    KeysNodup l → (∀ e ∈ l, ∀ a ∈ acc, a.1 ≠ e.1) →
    l.foldl (fun d e => dictInsert d e.1 e.2) acc = acc ++ l := by
  induction l with
  | nil => intro acc _ _; rw [List.foldl_nil, List.append_nil]
  | cons e t ih =>
    intro acc hnd hfresh
    rw [KeysNodup, List.pairwise_cons] at hnd
    rw [List.foldl_cons,
      dictInsert_fresh acc e.1 e.2 (hfresh e (List.mem_cons_self _ _)),
      ih (acc ++ [(e.1, e.2)]) hnd.2 ?_]
    · rw [List.append_assoc, List.singleton_append]
    · intro x hx a ha
      rcases List.mem_append.mp ha with h1 | h1
      · exact hfresh x (List.mem_cons_of_mem _ hx) a h1
      · rcases List.mem_singleton.mp h1 with rfl
        exact hnd.1 x hx
  
theorem loadLoop_entryLines (l : List Entry) (m : SparseMatrix) :
    loadLoop m (l.map entryLine)
      = .ok { m with
          data := l.foldl (fun d e => dictInsert d e.1 e.2) m.data } := by
  induction l generalizing m with
  | nil => rfl
  | cons e t ih =>
    rw [List.map_cons,
      loadLoop_cons_ok m { m with data := dictInsert m.data e.1 e.2 } _ _
        (loadLine_entryLine m e),
      ih, List.foldl_cons]

theorem keysNodup_sortItems (l : List Entry) (hnd : KeysNodup l) :
    KeysNodup (sortItems l) :=
  ((List.perm_insertionSort itemLe l).pairwise_iff
    (fun h => (h ∘ Eq.symm))).mpr hnd

theorem to_string_splits (M : SparseMatrix) :
    splitOn '\n' M.to_string
      = rowsLine M :: colsLine M :: (sortItems M.data).map entryLine := by
  rw [SparseMatrix.to_string]
  apply splitOn_joinNL
  · simp
  · intro l hl
    rcases List.mem_cons.mp hl with h1 | h1
    · rw [h1, rowsLine]
      intro hm
      rcases List.mem_append.mp hm with h | h
      · exact absurd h (by decide)
      · exact intStr_no_nl _ h
    rcases List.mem_cons.mp h1 with h2 | h2
    · rw [h2, colsLine]
      intro hm
      rcases List.mem_append.mp hm with h | h
      · exact absurd h (by decide)
      · exact intStr_no_nl _ h
    · obtain ⟨e, _, rfl⟩ := List.mem_map.mp h2
      intro hm
      rw [entryLine] at hm
      rcases List.mem_cons.mp hm with h | h
      · exact absurd h (by decide)
      rcases List.mem_append.mp h with h | h
      · exact intStr_no_nl _ h
      rcases List.mem_append.mp h with h | h
      · exact absurd h (by decide)
      rcases List.mem_append.mp h with h | h
      · exact intStr_no_nl _ h
      rcases List.mem_append.mp h with h | h
      · exact absurd h (by decide)
      rcases List.mem_append.mp h with h | h
      · exact intStr_no_nl _ h
      · exact absurd h (by decide)

theorem load_to_string (M : SparseMatrix) (hnd : KeysNodup M.data) :
    load_string M.to_string
      = .ok { rows := M.rows, cols := M.cols, data := sortItems M.data } := by
  rw [load_string, to_string_splits, load_lines,
    loadLoop_cons_ok mEmpty { mEmpty with rows := M.rows } _ _
      (loadLine_rowsLine mEmpty M),
    loadLoop_cons_ok _ { rows := M.rows, cols := M.cols, data := [] } _ _
      (loadLine_colsLine _ M),
    loadLoop_entryLines]
  rw [foldl_dictInsert_fresh _ _ (keysNodup_sortItems _ hnd)
    (fun e _ a ha => absurd ha (List.not_mem_nil a))]
  rw [List.nil_append]

/-! ### Lemmas: serialization order -/

theorem sortItems_key_sorted (l : List Entry) (hnd : KeysNodup l) :
    (sortItems l).Pairwise (fun a b => keyLt a.1 b.1) := by
  have hs : (sortItems l).Pairwise itemLe := List.sorted_insertionSort itemLe l
  have hn : (sortItems l).Pairwise (fun a b : Entry => a.1 ≠ b.1) :=
    keysNodup_sortItems l hnd
  refine (hs.and hn).imp ?_
  intro a b hab
  obtain ⟨h1, h2⟩ := hab
  have h2' : ¬(a.1.1 = b.1.1 ∧ a.1.2 = b.1.2) := fun hh =>
    h2 (Prod.ext hh.1 hh.2)
  unfold itemLe at h1
  unfold keyLt
  omega

theorem sortItems_perm (l : List Entry) : (sortItems l).Perm l :=
  List.perm_insertionSort itemLe l

/-! ### Lemmas: sequences of `set_element` calls -/

theorem applyOps_noZeros (M : SparseMatrix) (hz : NoZeros M.data)
    (ops : List (Int × Int × Int)) : NoZeros (applyOps M ops).data := by
  induction ops generalizing M with
  | nil => exact hz
  | cons t rest ih =>
    show NoZeros (applyOps (M.set_element t.1 t.2.1 t.2.2) rest).data
    exact ih _ (noZeros_set _ _ _ _ hz)

theorem set_zero_absent (m : SparseMatrix) (r c : Int)
    (h : ∀ e ∈ m.data, e.1 ≠ (r, c)) : m.set_element r c 0 = m := by
  unfold SparseMatrix.set_element
  rw [if_neg (fun hh : (0 : Int) ≠ 0 => hh rfl), if_neg ?_]
  intro hs
  rw [List.find?_isSome] at hs
  obtain ⟨x, hx, hpx⟩ := hs
  exact h x hx (by simpa using hpx)

/-! ### Lemmas: loads that never see a dimension line -/

theorem loadLine_keeps_dims (m m2 : SparseMatrix) (l : Str)
    (h1 : (strL "rows=").isPrefixOf (pyStrip l) = false)
    (h2 : (strL "cols=").isPrefixOf (pyStrip l) = false)
    (h : loadLine m l = .ok m2) : m2.rows = m.rows ∧ m2.cols = m.cols := by
  simp only [loadLine] at h
  split at h
  · cases h
    exact ⟨rfl, rfl⟩
  · split at h
    next hc =>
      rw [h1] at hc
      cases hc
    · split at h
      next hc =>
        rw [h2] at hc
        cases hc
      · split at h
        · split at h
          · split at h
            · cases h
              exact ⟨rfl, rfl⟩
            · cases h
          · cases h
        · cases h

theorem loadLoop_keeps_dims (ls : List Str) : ∀ m M : SparseMatrix,
    (∀ l ∈ ls, (strL "rows=").isPrefixOf (pyStrip l) = false ∧
      (strL "cols=").isPrefixOf (pyStrip l) = false) →
    loadLoop m ls = .ok M → M.rows = m.rows ∧ M.cols = m.cols := by
  induction ls with
  | nil =>
    intro m M _ h
    cases h
    exact ⟨rfl, rfl⟩
  | cons l rest ih =>
    intro m M hl h
    simp only [loadLoop] at h
    cases hload : loadLine m l with
    | error e =>
      rw [hload] at h
      cases h
    | ok m2 =>
      rw [hload] at h
      obtain ⟨ha, hb⟩ := loadLine_keeps_dims m m2 l
        (hl l (List.mem_cons_self _ _)).1 (hl l (List.mem_cons_self _ _)).2
        hload
      obtain ⟨hc, hd⟩ := ih m2 M (fun x hx => hl x (List.mem_cons_of_mem _ hx)) h
      exact ⟨by rw [hc, ha], by rw [hd, hb]⟩

/-! ### Lemmas: per-line acceptance of the loader -/

theorem loadLine_isOk (m : SparseMatrix) (l : Str) :
    (loadLine m l).isOk = amendedAcceptsLine l := by
  simp only [loadLine, amendedAcceptsLine]
  by_cases hb : pyStrip l = []
  · rw [if_pos hb]
    simp [hb, Except.isOk, Except.toBool]
  · rw [if_neg hb]
    by_cases hr : (strL "rows=").isPrefixOf (pyStrip l) = true
    · rw [if_pos hr]
      have hhead : ((pyStrip l).head? = some '(') = False := by
        obtain ⟨t2, ht⟩ := List.isPrefixOf_iff_prefix.mp hr
        rw [← ht]
        simp only [eq_iff_iff, iff_false]
        intro hh
        cases hh
      cases hint : pyInt? (pyStrip ((splitOn '=' (pyStrip l)).getD 1 [])) with
      | some n => simp [hb, hr, hint, Except.isOk, Except.toBool]
      | none => simp [hb, hr, hint, hhead, Except.isOk, Except.toBool]
    · rw [if_neg hr]
      rw [Bool.not_eq_true] at hr
      by_cases hcp : (strL "cols=").isPrefixOf (pyStrip l) = true
      · rw [if_pos hcp]
        have hhead : ((pyStrip l).head? = some '(') = False := by
          obtain ⟨t2, ht⟩ := List.isPrefixOf_iff_prefix.mp hcp
          rw [← ht]
          simp only [eq_iff_iff, iff_false]
          intro hh
          cases hh
        cases hint : pyInt? (pyStrip ((splitOn '=' (pyStrip l)).getD 1 [])) with
        | some n => simp [hb, hr, hcp, hint, Except.isOk, Except.toBool]
        | none => simp [hb, hr, hcp, hint, hhead, Except.isOk, Except.toBool]
      · rw [if_neg hcp]
        rw [Bool.not_eq_true] at hcp
        by_cases hpar : (pyStrip l).head? = some '(' ∧
            (pyStrip l).getLast? = some ')'
        · rw [if_pos hpar]
          by_cases hlen : (splitOn ',' (innerOf (pyStrip l))).length = 3
          · rw [if_pos hlen]
            obtain ⟨p0, p1, p2, hp⟩ := List.length_eq_three.mp hlen
            rw [hp]
            cases h0 : pyInt? (pyStrip p0) <;>
              cases h1 : pyInt? (pyStrip p1) <;>
              cases h2 : pyInt? (pyStrip p2) <;>
              simp [hb, hr, hcp, hpar.1, hpar.2, hp, h0, h1, h2, Except.isOk, Except.toBool]
          · rw [if_neg hlen]
            simp [hb, hr, hcp, hlen, Except.isOk, Except.toBool]
        · rw [if_neg hpar]
          rw [Classical.not_and_iff_or_not_not] at hpar
          rcases hpar with hp1 | hp2
          · simp [hb, hr, hcp, hp1, Except.isOk, Except.toBool]
          · simp [hb, hr, hcp, hp2, Except.isOk, Except.toBool]

theorem loadLoop_isOk_iff (ls : List Str) : ∀ m : SparseMatrix,
    (loadLoop m ls).isOk = true ↔ ∀ l ∈ ls, amendedAcceptsLine l = true := by
  induction ls with
  | nil =>
    intro m
    simp [loadLoop, Except.isOk, Except.toBool]
  | cons l rest ih =>
    intro m
    simp only [loadLoop]
    cases hload : loadLine m l with
    | error e =>
      have hacc : amendedAcceptsLine l = false := by
        rw [← loadLine_isOk m l, hload]
        rfl
      constructor
      · intro h
        exact absurd h (by simp [Except.isOk, Except.toBool])
      · intro h
        have hl := h l (List.mem_cons_self _ _)
        rw [hacc] at hl
        cases hl
    | ok m2 =>
      have hacc : amendedAcceptsLine l = true := by
        rw [← loadLine_isOk m l, hload]
        rfl
      rw [ih m2]
      constructor
      · intro h x hx
        rcases List.mem_cons.mp hx with rfl | hx2
        · exact hacc
        · exact h x hx2
      · intro h x hx
        exact h x (List.mem_cons_of_mem _ hx)

theorem loadLine_error_msg (m : SparseMatrix) (l : Str) (s : String)
    (h : loadLine m l = .error s) : s = errMsg := by
  simp only [loadLine] at h
  split at h
  · cases h
  · split at h
    · split at h
      · cases h
      · cases h
        rfl
    · split at h
      · split at h
        · cases h
        · cases h
          rfl
      · split at h
        · split at h
          · split at h
            · cases h
            · cases h
              rfl
          · cases h
            rfl
        · cases h
          rfl

theorem loadLoop_error_msg (ls : List Str) : ∀ m s,
    loadLoop m ls = .error s → s = errMsg := by
  induction ls with
  | nil => intro m s h; cases h
  | cons l rest ih =>
    intro m s h
    simp only [loadLoop] at h
    cases hload : loadLine m l with
    | error e =>
      rw [hload] at h
      cases h
      exact loadLine_error_msg m l s hload
    | ok m2 =>
      rw [hload] at h
      exact ih m2 s h

/-! ### Lemmas: the heap model of dictionary ownership -/

theorem getD_set_ne (σ : Store) (i j : Nat) (x : List Entry) (h : j ≠ i) :
    (σ.set i x).getD j [] = σ.getD j [] := by
  rw [List.getD, List.getD, List.get?_set_ne x σ (Ne.symm h)]

theorem getD_append_lt (σ σ2 : Store) (j : Nat) (h : j < σ.length) :
    (σ ++ σ2).getD j [] = σ.getD j [] := by
  rw [List.getD, List.getD, List.get?_append h]

theorem hset_getD_ne (σ : Store) (i j : Nat) (r c v : Int) (h : j ≠ i) :
    (hset σ i r c v).getD j [] = σ.getD j [] := by
  unfold hset
  split
  · exact getD_set_ne _ _ _ _ h
  · split
    · exact getD_set_ne _ _ _ _ h
    · rfl

theorem foldl_store_frame {α : Type} (f : Store → α → Store) (i : Nat)
    (hf : ∀ σ x j, j ≠ i → (f σ x).getD j [] = σ.getD j [])
    (l : List α) : ∀ (σ : Store) (j : Nat), j ≠ i →
    (l.foldl f σ).getD j [] = σ.getD j [] := by
  induction l with
  | nil => intro σ j _; rfl
  | cons x t ih =>
    intro σ j h
    rw [List.foldl_cons, ih _ _ h, hf _ _ _ h]

theorem addH_frame (σ : Store) (a b : MatRef)
    (ha : a.ref < σ.length) (hb : b.ref < σ.length) :
    ∀ σ2 m, addH σ a b = .ok (σ2, m) →
      m.ref ≠ a.ref ∧ m.ref ≠ b.ref ∧ m.rows = a.rows ∧ m.cols = a.cols ∧
      ∀ j, j < σ.length → σ2.getD j [] = σ.getD j [] := by
  intro σ2 m h
  unfold addH at h
  split at h
  · cases h
  · injection h with h2
    rw [Prod.mk.injEq] at h2
    obtain ⟨hσ, hm⟩ := h2
    subst hσ
    subst hm
    refine ⟨by simp; omega, by simp; omega, rfl, rfl, ?_⟩
    intro j hj
    rw [foldl_store_frame _ σ.length
      (fun s x j2 hj2 => hset_getD_ne s _ j2 _ _ _ hj2) _ _ j (by omega),
      getD_append_lt _ _ j hj]

theorem subtractH_frame (σ : Store) (a b : MatRef)
    (ha : a.ref < σ.length) (hb : b.ref < σ.length) :
    ∀ σ2 m, subtractH σ a b = .ok (σ2, m) →
      m.ref ≠ a.ref ∧ m.ref ≠ b.ref ∧ m.rows = a.rows ∧ m.cols = a.cols ∧
      ∀ j, j < σ.length → σ2.getD j [] = σ.getD j [] := by
  intro σ2 m h
  unfold subtractH at h
  split at h
  · cases h
  · injection h with h2
    rw [Prod.mk.injEq] at h2
    obtain ⟨hσ, hm⟩ := h2
    subst hσ
    subst hm
    refine ⟨by simp; omega, by simp; omega, rfl, rfl, ?_⟩
    intro j hj
    rw [foldl_store_frame _ σ.length
      (fun s x j2 hj2 => hset_getD_ne s _ j2 _ _ _ hj2) _ _ j (by omega),
      getD_append_lt _ _ j hj]

theorem multiplyH_frame (σ : Store) (a b : MatRef)
    (ha : a.ref < σ.length) (hb : b.ref < σ.length) :
    ∀ σ2 m, multiplyH σ a b = .ok (σ2, m) →
      m.ref ≠ a.ref ∧ m.ref ≠ b.ref ∧ m.rows = a.rows ∧ m.cols = b.cols ∧
      ∀ j, j < σ.length → σ2.getD j [] = σ.getD j [] := by
  intro σ2 m h
  unfold multiplyH at h
  split at h
  · cases h
  · injection h with h2
    rw [Prod.mk.injEq] at h2
    obtain ⟨hσ, hm⟩ := h2
    subst hσ
    subst hm
    refine ⟨by simp; omega, by simp; omega, rfl, rfl, ?_⟩
    intro j hj
    rw [foldl_store_frame _ σ.length ?_ _ _ j (by omega),
      getD_append_lt _ _ j hj]
    intro s x j2 hj2
    exact foldl_store_frame _ σ.length
      (fun s2 x2 j3 hj3 => by
        dsimp only
        split
        · exact hset_getD_ne s2 _ j3 _ _ _ hj3
        · rfl) _ s j2 hj2

/-! ### The claims -/

/-- Claim C1: `add(A, B)` and `subtract(A, B)` raise a `DimensionMismatch`
error exactly when `A.rows != B.rows or A.cols != B.cols`; when the
dimensions match, the result has `A`'s dimensions and its value at every
coordinate (0 when absent) is the sum (respectively difference) of the
operands' values there. -/
theorem claim_C1 (A B : SparseMatrix) (hB : KeysNodup B.data) :
    (¬(A.rows = B.rows ∧ A.cols = B.cols) →
      A.add B = .error "Matrix dimensions must match for addition" ∧
      A.subtract B = .error "Matrix dimensions must match for subtraction") ∧
    ((A.rows = B.rows ∧ A.cols = B.cols) →
      ∃ C D, A.add B = .ok C ∧ A.subtract B = .ok D ∧
        C.rows = A.rows ∧ C.cols = A.cols ∧
        D.rows = A.rows ∧ D.cols = A.cols ∧
        (∀ r c, C.get_element r c = A.get_element r c + B.get_element r c) ∧
        (∀ r c, D.get_element r c = A.get_element r c - B.get_element r c)) := by
  constructor
  · intro h
    exact ⟨add_err A B h, subtract_err A B h⟩
  · intro hd
    obtain ⟨C, hC, hCr, hCc, hCg, _⟩ := add_ok_spec A B hB hd.1 hd.2
    obtain ⟨D, hD, hDr, hDc, hDg⟩ := subtract_ok_spec A B hB hd.1 hd.2
    exact ⟨C, D, hC, hD, hCr, hCc, hDr, hDc, hCg, hDg⟩

/-- Witness for C1 at concrete 2x2 operands. -/
theorem claim_C1_witness :
    KeysNodup ex1B.data ∧
    ((¬(ex1A.rows = ex1B.rows ∧ ex1A.cols = ex1B.cols) →
      ex1A.add ex1B = .error "Matrix dimensions must match for addition" ∧
      ex1A.subtract ex1B
        = .error "Matrix dimensions must match for subtraction") ∧
    ((ex1A.rows = ex1B.rows ∧ ex1A.cols = ex1B.cols) →
      ∃ C D, ex1A.add ex1B = .ok C ∧ ex1A.subtract ex1B = .ok D ∧
        C.rows = ex1A.rows ∧ C.cols = ex1A.cols ∧
        D.rows = ex1A.rows ∧ D.cols = ex1A.cols ∧
        (∀ r c, C.get_element r c
          = ex1A.get_element r c + ex1B.get_element r c) ∧
        (∀ r c, D.get_element r c
          = ex1A.get_element r c - ex1B.get_element r c))) :=
  ⟨by decide, claim_C1 ex1A ex1B (by decide)⟩

/-- Claim C2: `multiply(A, B)` raises a `DimensionMismatch` error exactly
when `A.cols != B.rows`; for well-formed operands with matching inner
dimension the result is `A.rows x B.cols` and agrees with the dense
reference sum at every coordinate; on the spec's fixed example the result
is `[[3, 4], [0, 10]]`. -/
theorem claim_C2 (A B : SparseMatrix) (hA : KeysNodup A.data)
    (hAb : InBounds A) (hAz : NoZeros A.data) (hB : KeysNodup B.data)
    (hBb : InBounds B) (hBz : NoZeros B.data) :
    (A.cols ≠ B.rows →
      A.multiply B = .error "Matrix dimensions do not allow multiplication") ∧
    (A.cols = B.rows →
      ∃ C, A.multiply B = .ok C ∧ C.rows = A.rows ∧ C.cols = B.cols ∧
        ∀ r c, C.get_element r c = denseEntry A B r c) ∧
    (∃ P, ex2A.multiply ex2B = .ok P ∧
      P.get_element 0 0 = 3 ∧ P.get_element 0 1 = 4 ∧
      P.get_element 1 0 = 0 ∧ P.get_element 1 1 = 10) := by
  refine ⟨multiply_err A B, fun h => multiply_ok_spec A B hA hAb hBb h, ?_⟩
  exact ⟨{ rows := 2, cols := 2, data := [((0, 0), 3), ((0, 1), 4),
    ((1, 1), 10)] }, rfl, rfl, rfl, rfl, rfl⟩

/-- Witness for C2 at the spec's fixed example matrices. -/
theorem claim_C2_witness :
    (KeysNodup ex2A.data ∧ InBounds ex2A ∧ NoZeros ex2A.data ∧
      KeysNodup ex2B.data ∧ InBounds ex2B ∧ NoZeros ex2B.data) ∧
    ((ex2A.cols ≠ ex2B.rows →
      ex2A.multiply ex2B
        = .error "Matrix dimensions do not allow multiplication") ∧
    (ex2A.cols = ex2B.rows →
      ∃ C, ex2A.multiply ex2B = .ok C ∧ C.rows = ex2A.rows ∧
        C.cols = ex2B.cols ∧
        ∀ r c, C.get_element r c = denseEntry ex2A ex2B r c) ∧
    (∃ P, ex2A.multiply ex2B = .ok P ∧
      P.get_element 0 0 = 3 ∧ P.get_element 0 1 = 4 ∧
      P.get_element 1 0 = 0 ∧ P.get_element 1 1 = 10)) :=
  ⟨⟨by decide, by decide, by decide, by decide, by decide, by decide⟩,
    claim_C2 ex2A ex2B (by decide) (by decide) (by decide) (by decide)
      (by decide) (by decide)⟩

/-- Claim C3 names the no-zero-entries invariant for every matrix the core
returns, the loader included.  The loader stores the parsed value by direct
dictionary assignment instead of routing it through `set_element`, so a
file entry line with value 0 leaves a zero-valued entry in the returned
matrix: the code violates the documented invariant. -/
theorem claim_C3_bug :
    ∃ M, load_lines [strL "rows=1", strL "cols=1", strL "(0, 0, 0)"]
        = .ok M ∧ ((0, 0), 0) ∈ M.data ∧ ¬NoZeros M.data := by
  refine ⟨{ rows := 1, cols := 1, data := [((0, 0), 0)] }, rfl, by decide, ?_⟩
  intro h
  exact h ((0, 0), 0) (by decide) rfl

/-- Claim C4: parsing the text produced by `to_string` on a matrix whose
stored entries are all non-zero yields a matrix with the same rows, cols,
and non-zero entry set. -/
theorem claim_C4 (M : SparseMatrix) (hnd : KeysNodup M.data)
    (hz : NoZeros M.data) :
    ∃ M2, load_string M.to_string = .ok M2 ∧ M2.rows = M.rows ∧
      M2.cols = M.cols ∧ M2.data.Perm M.data ∧ EntriesEq M2 M := by
  refine ⟨{ rows := M.rows, cols := M.cols, data := sortItems M.data },
    load_to_string M hnd, rfl, rfl, sortItems_perm M.data, ?_⟩
  intro r c
  show dictGet (sortItems M.data) (r, c) = dictGet M.data (r, c)
  exact dictGet_perm _ _ _ (keysNodup_sortItems _ hnd) (sortItems_perm _)

/-- Witness for C4 at a concrete matrix with a negative entry. -/
theorem claim_C4_witness :
    (KeysNodup ex4M.data ∧ NoZeros ex4M.data) ∧
    (∃ M2, load_string ex4M.to_string = .ok M2 ∧ M2.rows = ex4M.rows ∧
      M2.cols = ex4M.cols ∧ M2.data.Perm ex4M.data ∧ EntriesEq M2 ex4M) :=
  ⟨⟨by decide, by decide⟩, claim_C4 ex4M (by decide) (by decide)⟩

/-- Claim C5, counterexample: the line `rows=3=4` matches none of the three
recognized shapes of the spec's grammar and is not blank, yet the load
succeeds (with rows = 3) instead of failing. -/
theorem claim_C5_counterexample :
    pyStrip (strL "rows=3=4") ≠ [] ∧
    specLineShape (strL "rows=3=4") = false ∧
    load_lines [strL "rows=3=4"] = .ok { rows := 3, cols := 0, data := [] } :=
  ⟨by decide, by decide, rfl⟩

/-- Claim C5, amended: the load succeeds exactly when every line is
accepted by the loader's per-line grammar — blank, or `rows=`/`cols=`
followed by text whose first `=`-separated field strips to a Python
integer, or a parenthesised entry of exactly three integer fields — the
first invalid line aborts the whole load with no matrix, and every failure
carries the single uniform error message. -/
theorem claim_C5_amended (ls : List Str) :
    ((load_lines ls).isOk = true ↔ ∀ l ∈ ls, amendedAcceptsLine l = true) ∧
    (∀ s, load_lines ls = .error s → s = errMsg) :=
  ⟨loadLoop_isOk_iff ls mEmpty, fun s h => loadLoop_error_msg ls mEmpty s h⟩

/-- Claim C6: starting from a matrix with no zero-valued entries, any
finite sequence of `set_element` calls leaves no key mapping to 0; a call
with a non-zero value inserts or overwrites exactly that entry, and a call
with value 0 zeroes the entry if present and leaves the matrix unchanged
when the key is absent. -/
theorem claim_C6 (M : SparseMatrix) (hz : NoZeros M.data)
    (ops : List (Int × Int × Int)) :
    NoZeros (applyOps M ops).data ∧
    (∀ r c v, v ≠ 0 → (M.set_element r c v).get_element r c = v ∧
      ∀ r' c', (r', c') ≠ (r, c) →
        (M.set_element r c v).get_element r' c' = M.get_element r' c') ∧
    (∀ r c, (M.set_element r c 0).get_element r c = 0 ∧
      ((∀ e ∈ M.data, e.1 ≠ (r, c)) → M.set_element r c 0 = M)) := by
  refine ⟨applyOps_noZeros M hz ops, ?_, ?_⟩
  · intro r c v _
    exact ⟨get_set_self M r c v, fun r' c' h => get_set_ne M r c v r' c' h⟩
  · intro r c
    exact ⟨get_set_self M r c 0, set_zero_absent M r c⟩

/-- Witness for C6 at a concrete matrix and operation sequence. -/
theorem claim_C6_witness :
    NoZeros ex6M.data ∧
    (NoZeros (applyOps ex6M [(0, 0, 5), (0, 1, 0)]).data ∧
    (∀ r c v, v ≠ 0 → (ex6M.set_element r c v).get_element r c = v ∧
      ∀ r' c', (r', c') ≠ (r, c) →
        (ex6M.set_element r c v).get_element r' c'
          = ex6M.get_element r' c') ∧
    (∀ r c, (ex6M.set_element r c 0).get_element r c = 0 ∧
      ((∀ e ∈ ex6M.data, e.1 ≠ (r, c)) → ex6M.set_element r c 0 = ex6M))) :=
  ⟨by decide, claim_C6 ex6M (by decide) [(0, 0, 5), (0, 1, 0)]⟩

/-- Claim C7: for equal-dimension operands, `subtract(add(A, B), B)` has
`A`'s dimensions and the same non-zero entry set as `A`. -/
theorem claim_C7 (A B : SparseMatrix) (hB : KeysNodup B.data)
    (h1 : A.rows = B.rows) (h2 : A.cols = B.cols) :
    ∃ C D, A.add B = .ok C ∧ C.subtract B = .ok D ∧
      D.rows = A.rows ∧ D.cols = A.cols ∧ EntriesEq D A := by
  obtain ⟨C, hC, hCr, hCc, hCg, _⟩ := add_ok_spec A B hB h1 h2
  obtain ⟨D, hD, hDr, hDc, hDg⟩ := subtract_ok_spec C B hB
    (by rw [hCr, h1]) (by rw [hCc, h2])
  refine ⟨C, D, hC, hD, by rw [hDr, hCr], by rw [hDc, hCc], ?_⟩
  intro r c
  rw [hDg, hCg]
  ring

/-- Witness for C7 at concrete 2x2 operands with a cancelling entry. -/
theorem claim_C7_witness :
    (KeysNodup ex7B.data ∧ ex7A.rows = ex7B.rows ∧
      ex7A.cols = ex7B.cols) ∧
    (∃ C D, ex7A.add ex7B = .ok C ∧ C.subtract ex7B = .ok D ∧
      D.rows = ex7A.rows ∧ D.cols = ex7A.cols ∧ EntriesEq D ex7A) :=
  ⟨⟨by decide, by decide, by decide⟩,
    claim_C7 ex7A ex7B (by decide) (by decide) (by decide)⟩

/-- Claim C8, in the heap model where each matrix's mutable dictionary
lives in a store: `add`, `subtract`, and `multiply` allocate a fresh
dictionary for the result — its reference differs from both operands'
references — and every dictionary that existed before the call is
unchanged afterwards; the operands' `rows` and `cols` attributes are
values the operations never write.  On error no store is produced, so
nothing is modified. -/
theorem claim_C8 (σ : Store) (a b : MatRef)
    (ha : a.ref < σ.length) (hb : b.ref < σ.length) :
    (∀ σ2 m, addH σ a b = .ok (σ2, m) →
      m.ref ≠ a.ref ∧ m.ref ≠ b.ref ∧ m.rows = a.rows ∧ m.cols = a.cols ∧
      ∀ j, j < σ.length → σ2.getD j [] = σ.getD j []) ∧
    (∀ σ2 m, subtractH σ a b = .ok (σ2, m) →
      m.ref ≠ a.ref ∧ m.ref ≠ b.ref ∧ m.rows = a.rows ∧ m.cols = a.cols ∧
      ∀ j, j < σ.length → σ2.getD j [] = σ.getD j []) ∧
    (∀ σ2 m, multiplyH σ a b = .ok (σ2, m) →
      m.ref ≠ a.ref ∧ m.ref ≠ b.ref ∧ m.rows = a.rows ∧ m.cols = b.cols ∧
      ∀ j, j < σ.length → σ2.getD j [] = σ.getD j []) :=
  ⟨addH_frame σ a b ha hb, subtractH_frame σ a b ha hb,
    multiplyH_frame σ a b ha hb⟩

/-- Witness for C8 at a concrete two-dictionary store. -/
theorem claim_C8_witness :
    (ex8A.ref < ex8S.length ∧ ex8B.ref < ex8S.length) ∧
    ((∀ σ2 m, addH ex8S ex8A ex8B = .ok (σ2, m) →
      m.ref ≠ ex8A.ref ∧ m.ref ≠ ex8B.ref ∧ m.rows = ex8A.rows ∧
      m.cols = ex8A.cols ∧
      ∀ j, j < ex8S.length → σ2.getD j [] = ex8S.getD j []) ∧
    (∀ σ2 m, subtractH ex8S ex8A ex8B = .ok (σ2, m) →
      m.ref ≠ ex8A.ref ∧ m.ref ≠ ex8B.ref ∧ m.rows = ex8A.rows ∧
      m.cols = ex8A.cols ∧
      ∀ j, j < ex8S.length → σ2.getD j [] = ex8S.getD j []) ∧
    (∀ σ2 m, multiplyH ex8S ex8A ex8B = .ok (σ2, m) →
      m.ref ≠ ex8A.ref ∧ m.ref ≠ ex8B.ref ∧ m.rows = ex8A.rows ∧
      m.cols = ex8B.cols ∧
      ∀ j, j < ex8S.length → σ2.getD j [] = ex8S.getD j [])) :=
  ⟨⟨by decide, by decide⟩, claim_C8 ex8S ex8A ex8B (by decide) (by decide)⟩

/-- Claim C9: `to_string` emits the `rows=` line, the `cols=` line, then
one line per stored entry in ascending lexicographic key order (row-major,
then column); in particular entries set in the order (1,0), (0,5), (0,1)
serialize with (0,1) first, then (0,5), then (1,0). -/
theorem claim_C9 (M : SparseMatrix) (hnd : KeysNodup M.data) :
    (∃ l : List Entry, l.Perm M.data ∧
      l.Pairwise (fun a b => keyLt a.1 b.1) ∧
      splitOn '\n' M.to_string
        = rowsLine M :: colsLine M :: l.map entryLine) ∧
    SparseMatrix.to_string
        (((mEmpty.set_element 1 0 7).set_element 0 5 8).set_element 0 1 9)
      = strL "rows=0\ncols=0\n(0, 1, 9)\n(0, 5, 8)\n(1, 0, 7)" := by
  constructor
  · exact ⟨sortItems M.data, sortItems_perm _, sortItems_key_sorted _ hnd,
      to_string_splits M⟩
  · decide

/-- Witness for C9 at a concrete matrix. -/
theorem claim_C9_witness :
    KeysNodup ex9M.data ∧
    ((∃ l : List Entry, l.Perm ex9M.data ∧
      l.Pairwise (fun a b => keyLt a.1 b.1) ∧
      splitOn '\n' ex9M.to_string
        = rowsLine ex9M :: colsLine ex9M :: l.map entryLine) ∧
    SparseMatrix.to_string
        (((mEmpty.set_element 1 0 7).set_element 0 5 8).set_element 0 1 9)
      = strL "rows=0\ncols=0\n(0, 1, 9)\n(0, 5, 8)\n(1, 0, 7)") :=
  ⟨by decide, claim_C9 ex9M (by decide)⟩

/-- Claim C10: loading a syntactically valid file with no `rows=` and no
`cols=` line succeeds and returns a matrix with the constructor's default
dimensions rows = 0 and cols = 0; entry lines are still stored, landing
outside the declared 0x0 bounds. -/
theorem claim_C10 (ls : List Str)
    (hval : ∀ l ∈ ls, amendedAcceptsLine l = true)
    (hnod : ∀ l ∈ ls, (strL "rows=").isPrefixOf (pyStrip l) = false ∧
      (strL "cols=").isPrefixOf (pyStrip l) = false) :
    (∃ M, load_lines ls = .ok M ∧ M.rows = 0 ∧ M.cols = 0) ∧
    load_lines [strL "(2, 3, 7)"]
      = .ok { rows := 0, cols := 0, data := [((2, 3), 7)] } := by
  constructor
  · have hok : (load_lines ls).isOk = true :=
      (loadLoop_isOk_iff ls mEmpty).mpr hval
    cases hM : load_lines ls with
    | error e =>
      rw [hM] at hok
      simp [Except.isOk, Except.toBool] at hok
    | ok M =>
      obtain ⟨h1, h2⟩ := loadLoop_keeps_dims ls mEmpty M hnod hM
      exact ⟨M, rfl, h1, h2⟩
  · rfl

/-- Witness for C10 at a concrete file with one entry line and one blank
line. -/
theorem claim_C10_witness :
    ((∀ l ∈ ex10L, amendedAcceptsLine l = true) ∧
      (∀ l ∈ ex10L, (strL "rows=").isPrefixOf (pyStrip l) = false ∧
        (strL "cols=").isPrefixOf (pyStrip l) = false)) ∧
    ((∃ M, load_lines ex10L = .ok M ∧ M.rows = 0 ∧ M.cols = 0) ∧
    load_lines [strL "(2, 3, 7)"]
      = .ok { rows := 0, cols := 0, data := [((2, 3), 7)] }) :=
  ⟨⟨by decide, by decide⟩, claim_C10 ex10L (by decide) (by decide)⟩
